import Mathlib

/-!
Verification development for the file upload/obfuscation/distribution backend.

The Go sources are shallowly embedded:
* byte streams are `List Nat` (the proved properties never depend on values
  being < 256, so bytes are left unconstrained naturals);
* the ChaCha20 keystream produced by
  `chacha20.NewUnauthenticatedCipher(seed, zeroNonce)` is an abstract function
  `ks : Nat → Nat` giving the i-th keystream byte.  `XORKeyStream` over an
  all-zero source consumes the stream sequentially, so a cipher state is just
  a start index into `ks`.  Both the forward and the inverse codec construct
  the cipher from the same seed, hence they share the same `ks`;
* Go `int64` values are `Int`; Go integer division truncates toward zero and
  is modeled with `Int.tdiv`; Go `uint64` modulo on non-negative values is
  `Nat` modulo;
* fallible operations return `Option`/`Except`; a Go runtime panic
  (integer divide by zero) is modeled as `none`;
* file / network / database I-O performed by the HTTP handlers is abstracted
  into explicit result parameters (`Bool` success flags or `Except` results),
  and each handler is embedded as a pure decision function from those results
  to its observable outcome (HTTP status code, state updates, spawned work).
-/

namespace SE

/-! ## Obfuscation codec (`internal/fileprocessor/obfuscator.go`, `deobfuscator.go`) -/

/-- Big-endian unsigned 64-bit value of the 8 keystream bytes starting at `base`:
`binary.BigEndian.Uint64(randomBytes[base : base+8])` in `generateInjectionOffsets`,
where `randomBytes` is the prefix of the keystream. -/
def beUint64 (ks : Nat → Nat) (base : Nat) : Nat :=
  ks base * 256 ^ 7 + ks (base + 1) * 256 ^ 6 + ks (base + 2) * 256 ^ 5 +
    ks (base + 3) * 256 ^ 4 + ks (base + 4) * 256 ^ 3 + ks (base + 5) * 256 ^ 2 +
    ks (base + 6) * 256 + ks (base + 7)

/-- The modulus used for injection offsets, mirroring `generateInjectionOffsets`:
`maxOffset := fileSize - minGap; if maxOffset < 0 { maxOffset = fileSize }`
(`int64` arithmetic, hence computed in `Int`).  Note the guard is strictly
`< 0`: for `fileSize = minGap` the modulus stays `0`. -/
def maxOffsetOf (fileSize minGap : Nat) : Int :=
  let maxOffset : Int := (fileSize : Int) - (minGap : Int)
  if maxOffset < 0 then (fileSize : Int) else maxOffset

/-- `generateInjectionOffsets` of `obfuscator.go`.  The Go loop computes
`binary.BigEndian.Uint64` over each 8-byte slice of the first
`8 * numInjections` keystream bytes and reduces it `% uint64(maxOffset)`;
when `maxOffset = 0` and the loop body runs at least once this is an integer
division by zero, i.e. a runtime panic, modeled as `none`.  When
`numInjections = 0` the loop body never executes, so no division happens.
The Go code then bubble-sorts the offsets ascending; sorting a list of
naturals ascending has a unique result, modeled with `List.insertionSort`. -/
def generateInjectionOffsets (ks : Nat → Nat) (fileSize numInjections minGap : Nat) :
    Option (List Nat) :=
  let maxOffset := (maxOffsetOf fileSize minGap).toNat
  if numInjections = 0 then some []
  else if maxOffset = 0 then none
  else some (List.insertionSort (· ≤ ·)
    ((List.range numInjections).map (fun i => beUint64 ks (8 * i) % maxOffset)))

/-- One noise block: `blockSize` keystream bytes starting at keystream index
`start` (`cipher.XORKeyStream(noiseBlock, zeroSrc)` in `streamInjectNoise`). -/
def noiseBlock (ks : Nat → Nat) (start blockSize : Nat) : List Nat :=
  (List.range blockSize).map (fun j => ks (start + j))

/-- The sequence of noise blocks consumed by `streamInjectNoise`: after the
first `start` keystream bytes were used for offsets, block `j` occupies
keystream indices `[start + j*blockSize, start + (j+1)*blockSize)`. -/
def noiseBlocks (ks : Nat → Nat) (start blockSize count : Nat) : List (List Nat) :=
  (List.range count).map (fun j => noiseBlock ks (start + j * blockSize) blockSize)

/-- Stream-level semantics of `streamInjectNoise` of `obfuscator.go`: `cur` is
the position (in original-file coordinates) of the head of `buf`; for each
sorted offset `o` the bytes up to `o` are emitted, then one noise block, and
the walk continues at `o`.  The Go function reads the input in 32 KiB buffers;
since every offset is `< fileSize` and the offsets are sorted, the buffered
loop computes exactly this stream transformation (duplicate offsets yield
consecutive blocks at the same point, as in Go where `relativePos = 0`). -/
def streamInjectNoise : Nat → List Nat → List Nat → List (List Nat) → List Nat
  | _, buf, [], _ => buf
  | _, buf, _ :: _, [] => buf
  | cur, buf, o :: os, nb :: nbs =>
      buf.take (o - cur) ++ nb ++ streamInjectNoise o (buf.drop (o - cur)) os nbs

/-- `ObfuscateFile` of `obfuscator.go`, with file I-O abstracted: input bytes in,
output bytes out.  `targetOverhead` stands for Go's
`int64(float64(originalSize) * (overheadPct / 100.0))` — a float64 computation
abstracted into a parameter, since no proved property depends on its value.
`numInjections := targetOverhead / blockSize; if numInjections == 0 { numInjections = 1 }`. -/
def ObfuscateFile (ks : Nat → Nat) (input : List Nat)
    (blockSize minGap targetOverhead : Nat) : Option (List Nat) :=
  let originalSize := input.length
  let numInjections :=
    if targetOverhead / blockSize = 0 then 1 else targetOverhead / blockSize
  match generateInjectionOffsets ks originalSize numInjections minGap with
  | none => none
  | some offsets =>
      some (streamInjectNoise 0 input offsets
        (noiseBlocks ks (8 * numInjections) blockSize numInjections))

/-- The `cumulativeShift` loop of `adjustOffsetsForProcessedFile` of
`deobfuscator.go`: `adjusted[i] = offsets[i] + shift` with `shift` growing by
`blockSize` per element. -/
def adjustOffsetsAux (blockSize : Nat) : Nat → List Nat → List Nat
  | _, [] => []
  | shift, o :: os => (o + shift) :: adjustOffsetsAux blockSize (shift + blockSize) os

/-- `adjustOffsetsForProcessedFile` of `deobfuscator.go` (`blockSize <= 0` and
empty input are returned unchanged). -/
def adjustOffsetsForProcessedFile (offsets : List Nat) (blockSize : Nat) : List Nat :=
  if blockSize = 0 ∨ offsets.isEmpty then offsets
  else adjustOffsetsAux blockSize 0 offsets

/-- Idealized stream-level removal: skip exactly `blockSize` bytes at each
adjusted offset (`cur` is the obfuscated-coordinates position of the head of
`buf`).  This is the transformation the spec's inverse describes; the Go
function is the 32 KiB-buffered loop `streamRemoveNoise` below, proved equal
to this transformation exactly in the regime `blockSize ≤ 32 * 1024` (where a
noise block spans at most two read buffers) and refuted beyond it. -/
def skipNoiseBlocks (blockSize : Nat) : Nat → List Nat → List Nat → List Nat
  | _, buf, [] => buf
  | cur, buf, a :: as =>
      buf.take (a - cur) ++
        skipNoiseBlocks blockSize (a + blockSize) (buf.drop (a + blockSize - cur)) as

/-- The inner `for offsetIdx < len(offsets)` loop of Go's `streamRemoveNoise`,
processing one read buffer `chunk` whose first byte sits at obfuscated
position `cur`; `writeStart` is the prefix of `chunk` already written or
skipped.  Returns the bytes written while processing this buffer (including
the final `chunk[writeStart:]` write) and the still-pending offsets
(`offsetIdx` is modeled by returning the suffix of `offsets`).  The three Go
branches are mirrored in order, including both `break`s and the unconditional
`offsetIdx++` of the started-in-a-previous-buffer branch — which advances
past a noise block even when the block still extends beyond this buffer. -/
def removeChunkLoop (blockSize cur : Nat) (chunk : List Nat) :
    List Nat → Nat → List Nat × List Nat
  | [], writeStart => (chunk.drop writeStart, [])
  | o :: os, writeStart =>
      if cur ≤ o ∧ o < cur + chunk.length then
        let relativeNoiseStart := o - cur
        let emitted := if writeStart < relativeNoiseStart then
            (chunk.drop writeStart).take (relativeNoiseStart - writeStart) else []
        let relativeNoiseEnd := min (o + blockSize - cur) chunk.length
        if o + blockSize ≤ cur + chunk.length then
          let r := removeChunkLoop blockSize cur chunk os relativeNoiseEnd
          (emitted ++ r.1, r.2)
        else
          (emitted ++ chunk.drop relativeNoiseEnd, o :: os)
      else if o < cur then
        removeChunkLoop blockSize cur chunk os
          (if cur < o + blockSize then min (o + blockSize - cur) chunk.length else writeStart)
      else
        (chunk.drop writeStart, o :: os)

/-- `streamRemoveNoise` of `deobfuscator.go`: the outer read loop with its
32 KiB buffer (`buffer := make([]byte, 32*1024)`).  Each `Read` on the regular
input file returns `min(32*1024, remaining)` bytes; `cur` is Go's
`currentOffset`. -/
def streamRemoveNoise (blockSize cur : Nat) (input : List Nat) (offsets : List Nat) :
    List Nat :=
  if h : input.isEmpty then []
  else
    let chunk := input.take (32 * 1024)
    let r := removeChunkLoop blockSize cur chunk offsets 0
    r.1 ++ streamRemoveNoise blockSize (cur + chunk.length) (input.drop (32 * 1024)) r.2
termination_by input.length
decreasing_by
  rw [List.length_drop]
  have hne : input ≠ [] := by simpa [List.isEmpty_iff] using h
  have hlen : 0 < input.length := List.length_pos.mpr hne
  omega

/-- Invariant tying `removeChunkLoop` to `skipNoiseBlocks`: the first pending
offset either lies at or beyond the already-consumed prefix of the current
buffer, or (only on entry, `writeStart = 0`) is a block that started before
this buffer and still reaches into it. -/
def noiseHeadOk (B : Nat) : List Nat → Nat → Nat → Prop
  | [], _, _ => True
  | o :: _, cur, ws => cur + ws ≤ o ∨ (ws = 0 ∧ o < cur ∧ cur < o + B)

/-- Keystream of the large-block counterexample: the first 8 bytes encode
32767 big-endian, every later byte is 0. -/
def cexKeystream : Nat → Nat :=
  fun i => if i = 6 then 127 else if i = 7 then 255 else 0

/-- `DeobfuscateFile` of `deobfuscator.go`, with file I-O and the base64 seed
decoding abstracted (the seed is carried as the shared keystream `ks`).  The
guards mirror the Go checks in order: `originalSize <= 0`, `BlockSize <= 0`,
`originalSize > processedSize`, then (for positive `noiseBytes`) the alignment
check and the offset regeneration with the same generator parameters. -/
def DeobfuscateFile (ks : Nat → Nat) (processed : List Nat)
    (originalSize blockSize minGap : Nat) : Option (List Nat) :=
  if originalSize = 0 then none
  else if blockSize = 0 then none
  else if processed.length < originalSize then none
  else
    let noiseBytes := processed.length - originalSize
    if noiseBytes = 0 then some (streamRemoveNoise blockSize 0 processed [])
    else if noiseBytes % blockSize ≠ 0 then none
    else
      match generateInjectionOffsets ks originalSize (noiseBytes / blockSize) minGap with
      | none => none
      | some offsets =>
          some (streamRemoveNoise blockSize 0 processed
            (adjustOffsetsForProcessedFile offsets blockSize))

/-! ## Chunk planner (`internal/fileprocessor/obfuscator.go`, planner half) -/

/-- `models.DriveSpaceInfo`, restricted to the fields the planner reads
(`DisplayName`, `TotalSpace`, `UsedSpace`, `Error` are never consulted by
`CalculateChunkPlan`); the Mongo `ObjectID` is abstracted to a `Nat`. -/
structure DriveSpaceInfo where
  accountID : Nat
  freeSpace : Int
  available : Bool
deriving DecidableEq

/-- `models.ChunkPlan`. -/
structure ChunkPlan where
  chunkID : Nat
  driveAccountID : Nat
  size : Int
  startOffset : Int
  endOffset : Int
deriving DecidableEq

/-- The `sort.Slice(drives, freeSpace descending)` call of
`calculateGreedyPlan`.  Go's sort is unstable, so the order among drives of
equal free space is unspecified; it is modeled with the stable insertion sort,
and no proved property depends on the order of equals. -/
def sortDrivesDesc (drives : List DriveSpaceInfo) : List DriveSpaceInfo :=
  List.insertionSort (fun a b => b.freeSpace ≤ a.freeSpace) drives

/-- The allocation loop of `calculateGreedyPlan`: consume
`min(remaining, freeSpace)` per drive, stopping when `remaining <= 0`.
Returns the emitted chunks and the final `remaining`. -/
def greedyLoop : Int → Int → Nat → List DriveSpaceInfo → List ChunkPlan × Int
  | remaining, _, _, [] => ([], remaining)
  | remaining, offset, chunkID, d :: ds =>
      if remaining ≤ 0 then ([], remaining)
      else
        let chunkSize := if d.freeSpace < remaining then d.freeSpace else remaining
        let rest := greedyLoop (remaining - chunkSize) (offset + chunkSize) (chunkID + 1) ds
        (⟨chunkID, d.accountID, chunkSize, offset, offset + chunkSize⟩ :: rest.1, rest.2)

/-- `calculateGreedyPlan` of `obfuscator.go`. -/
def calculateGreedyPlan (fileSize : Int) (drives : List DriveSpaceInfo) :
    Except String (List ChunkPlan) :=
  let r := greedyLoop fileSize 0 1 (sortDrivesDesc drives)
  if 0 < r.2 then Except.error ("failed to allocate all chunks")
  else Except.ok r.1

/-- The allocation loop of `calculateBalancedPlan`: per drive the target size
(or, on the last index, the whole remainder) is clamped to the drive's free
space and to `remaining`; zero-size assignments are skipped without consuming
a chunk id. -/
def balancedLoop (targetChunkSize : Int) (numDrives : Nat) :
    Nat → Int → Int → Nat → List DriveSpaceInfo → List ChunkPlan × Int
  | _, remaining, _, _, [] => ([], remaining)
  | i, remaining, offset, chunkID, d :: ds =>
      if remaining ≤ 0 then ([], remaining)
      else
        let c1 := if i = numDrives - 1 then remaining else targetChunkSize
        let c2 := if d.freeSpace < c1 then d.freeSpace else c1
        let chunkSize := if remaining < c2 then remaining else c2
        if 0 < chunkSize then
          let rest := balancedLoop targetChunkSize numDrives (i + 1) (remaining - chunkSize)
            (offset + chunkSize) (chunkID + 1) ds
          (⟨chunkID, d.accountID, chunkSize, offset, offset + chunkSize⟩ :: rest.1, rest.2)
        else balancedLoop targetChunkSize numDrives (i + 1) remaining offset chunkID ds

/-- `calculateBalancedPlan` of `obfuscator.go`:
`targetChunkSize := fileSize / int64(numDrives)` (Go division truncates toward
zero, hence `Int.tdiv`); if bytes remain after the clamped pass, the whole
request is redone by `calculateGreedyPlan` on the same drive list. -/
def calculateBalancedPlan (fileSize : Int) (drives : List DriveSpaceInfo) :
    Except String (List ChunkPlan) :=
  let r := balancedLoop (Int.tdiv fileSize (drives.length : Int)) drives.length
    0 fileSize 0 1 drives
  if 0 < r.2 then calculateGreedyPlan fileSize drives
  else Except.ok r.1

/-- The exact rational value of the proportional share, truncated toward zero:
`⌊fileSize * freeSpace / totalSpace⌋` for the non-negative inputs the planner
feeds it.  Go does not compute this exactly: it computes
`proportion := float64(freeSpace) / float64(totalSpace)` and
`chunkSize := int64(float64(fileSize) * proportion)` in IEEE-754 double
precision, which coincides with `ratShare` whenever no rounding error crosses
an integer boundary but can exceed it at `int64`-scale magnitudes. -/
def ratShare (fileSize freeSpace totalSpace : Int) : Int :=
  Int.tdiv (fileSize * freeSpace) totalSpace

/-- The allocation loop of `calculateProportionalPlan`.  The float64 share
expression (see `ratShare`) has no faithful shallow embedding, so it is
abstracted as the function parameter `propShare`, applied to
`(fileSize, d.freeSpace, totalSpace)`; every theorem about the proportional
strategy below is proved for an arbitrary such function and therefore holds
in particular for the float64 one.  The last index receives
`fileSize - allocated` instead; every assignment is clamped to the drive's
free space; zero-size assignments are skipped without consuming a chunk id. -/
def proportionalLoop (propShare : Int → Int → Int → Int) (fileSize totalSpace : Int)
    (numDrives : Nat) :
    Nat → Int → Int → Nat → List DriveSpaceInfo → List ChunkPlan × Int
  | _, _, allocated, _, [] => ([], allocated)
  | i, offset, allocated, chunkID, d :: ds =>
      let c1 := if i = numDrives - 1 then fileSize - allocated
                else propShare fileSize d.freeSpace totalSpace
      let chunkSize := if d.freeSpace < c1 then d.freeSpace else c1
      if 0 < chunkSize then
        let rest := proportionalLoop propShare fileSize totalSpace numDrives (i + 1)
          (offset + chunkSize) (allocated + chunkSize) (chunkID + 1) ds
        (⟨chunkID, d.accountID, chunkSize, offset, offset + chunkSize⟩ :: rest.1, rest.2)
      else proportionalLoop propShare fileSize totalSpace numDrives (i + 1) offset allocated
        chunkID ds

/-- `calculateProportionalPlan` of `obfuscator.go`: after the loop, error if
`allocated < fileSize`. -/
def calculateProportionalPlan (propShare : Int → Int → Int → Int) (fileSize : Int)
    (drives : List DriveSpaceInfo) : Except String (List ChunkPlan) :=
  let totalSpace := (drives.map (fun d => d.freeSpace)).sum
  let r := proportionalLoop propShare fileSize totalSpace drives.length 0 0 0 1 drives
  if r.2 < fileSize then Except.error ("failed to allocate all chunks")
  else Except.ok r.1

/-- The emission loop of `calculateManualPlan`: entry `i` (0-based) with a
positive size becomes a chunk with `ChunkID = i + 1` on drive `i`; other
entries are skipped (their index is still consumed). -/
def manualLoop : Int → Nat → List Int → List DriveSpaceInfo → List ChunkPlan
  | _, _, [], _ => []
  | _, _, _ :: _, [] => []
  | offset, i, size :: sizes, d :: ds =>
      if 0 < size then
        ⟨i + 1, d.accountID, size, offset, offset + size⟩ ::
          manualLoop (offset + size) (i + 1) sizes ds
      else manualLoop offset (i + 1) sizes ds

/-- `calculateManualPlan` of `obfuscator.go`.  Go validates per index
(negative size, size exceeding the drive's free space) and then compares the
total against `fileSize`; the validation is collapsed into equivalent
whole-list checks (only the error message text differs, never the
ok/error outcome). -/
def calculateManualPlan (fileSize : Int) (drives : List DriveSpaceInfo)
    (manualSizes : List Int) : Except String (List ChunkPlan) :=
  if manualSizes.length ≠ drives.length then
    Except.error ("number of manual sizes must match number of drives")
  else if (manualSizes.zip drives).any
      (fun p => decide (p.1 < 0) || decide (p.2.freeSpace < p.1)) then
    Except.error ("manual size invalid for its drive")
  else if manualSizes.sum ≠ fileSize then
    Except.error ("sum of manual sizes does not match file size")
  else Except.ok (manualLoop 0 0 manualSizes drives)

/-- The `availableDrives` filter of `CalculateChunkPlan`: drives marked
available with positive free space. -/
def availableDrivesOf (driveSpaces : List DriveSpaceInfo) : List DriveSpaceInfo :=
  driveSpaces.filter (fun d => d.available && decide (0 < d.freeSpace))

/-- The `totalAvailable` sum of `CalculateChunkPlan`. -/
def totalAvailableOf (driveSpaces : List DriveSpaceInfo) : Int :=
  ((availableDrivesOf driveSpaces).map (fun d => d.freeSpace)).sum

/-- `CalculateChunkPlan` of `obfuscator.go`: filter out unavailable drives and
drives without positive free space, check total capacity, then dispatch on the
strategy string.  `propShare` abstracts the float64 proportional-share
expression, see `proportionalLoop`. -/
def CalculateChunkPlan (propShare : Int → Int → Int → Int) (fileSize : Int)
    (driveSpaces : List DriveSpaceInfo) (strategy : String) (manualSizes : List Int) :
    Except String (List ChunkPlan) :=
  let availableDrives := availableDrivesOf driveSpaces
  if availableDrives.isEmpty then Except.error ("no available drives")
  else if totalAvailableOf driveSpaces < fileSize then
    Except.error ("insufficient total space")
  else if strategy = "greedy" then calculateGreedyPlan fileSize availableDrives
  else if strategy = "balanced" then calculateBalancedPlan fileSize availableDrives
  else if strategy = "proportional" then
    calculateProportionalPlan propShare fileSize availableDrives
  else if strategy = "manual" then calculateManualPlan fileSize availableDrives manualSizes
  else Except.error ("invalid chunking strategy")

/-- Specification predicate: the chunks tile `[off, …)` contiguously in order,
with `endOffset = startOffset + size` for every entry. -/
def contiguousFrom : Int → List ChunkPlan → Bool
  | _, [] => true
  | off, c :: cs =>
      decide (c.startOffset = off) && decide (c.endOffset = c.startOffset + c.size) &&
        contiguousFrom c.endOffset cs

/-- Specification helper for manual plans: the 1-based indices of the positive
entries of a size vector, in order (`i` is the index of the head). -/
def positiveIdx : Nat → List Int → List Nat
  | _, [] => []
  | i, s :: ss => if 0 < s then (i + 1) :: positiveIdx (i + 1) ss else positiveIdx (i + 1) ss

/-! ## Upload session handlers (`unnamed/part_005`, package `filehandlers`).

The repository carries two revisions of package `filehandlers`; the one in
`unnamed/part_005` is the current one (it alone implements file ids, stored
files and the key-file download used elsewhere) and is the revision embedded
here.  Database lookups and file-system operations are abstracted into
parameters. -/

/-- `models.UploadSession`, restricted to the fields the embedded handlers
read; times are abstract `Int` instants. -/
structure UploadSession where
  userID : Nat
  totalSize : Int
  uploadedSize : Int
  status : String
  expiresAt : Int
deriving DecidableEq

/-- `fileprocessor.GetSession`: not-found, ownership and expiry checks (note:
no check of `status`).  `time.Now().After(ExpiresAt)` is `expiresAt < now`. -/
def GetSession (session : Option UploadSession) (userID : Nat) (now : Int) :
    Except String UploadSession :=
  match session with
  | none => Except.error ("session not found")
  | some s =>
      if s.userID ≠ userID then Except.error ("unauthorized")
      else if s.expiresAt < now then Except.error ("session expired")
      else Except.ok s

/-- Observable outcome of the finalize handler: HTTP status code and whether
the background processing goroutine was spawned. -/
structure FinalizeOutcome where
  statusCode : Nat
  pipelineSpawned : Bool
deriving DecidableEq

/-- `FinalizeUploadHandler` of `unnamed/part_005`, from the point where the
session id has been parsed: every `GetSession` error is returned as HTTP 400,
then `uploadedSize = totalSize` is required, then the status is set to
`processing` (`statusUpdateOk` abstracts that database write; on failure the
handler returns 500 without spawning), and only then the pipeline goroutine is
spawned and 200 returned.  The session's current `status` is never
consulted. -/
def FinalizeUploadHandler (session : Option UploadSession) (userID : Nat) (now : Int)
    (statusUpdateOk : Bool) : FinalizeOutcome :=
  match GetSession session userID now with
  | Except.error _ => ⟨400, false⟩
  | Except.ok s =>
      if s.uploadedSize ≠ s.totalSize then ⟨400, false⟩
      else if ¬ statusUpdateOk then ⟨500, false⟩
      else ⟨200, true⟩

/-- Observable outcome of the chunk-upload handler: HTTP status code, the file
offset written to, and the session's `uploaded_size` after the request. -/
structure ChunkUploadOutcome where
  statusCode : Nat
  writeOffset : Int
  newUploadedSize : Int
deriving DecidableEq

/-- The session's stored `uploaded_size` (`0` when there is no session — that
branch reports no size at all in Go). -/
def sessionUploadedSize (session : Option UploadSession) : Int :=
  match session with
  | none => 0
  | some s => s.uploadedSize

/-- `UploadChunkHandler` of `unnamed/part_005`, from the point where the
session id has been parsed.  `offsetField` is the result of
`strconv.ParseInt(r.FormValue("offset"), 10, 64)`: `none` models a missing or
malformed field, for which Go yields value `0` and an error that the handler
discards (`offset, _ := …`), so the write offset becomes `0`.  `formParseOk`,
`hasChunkFile`, `openOk`, `copyOk` abstract the multipart parse, the `chunk`
form file, `os.OpenFile` and `io.Copy`; a seek to a negative offset fails at
the OS level (500).  `written` is the byte count returned by `io.Copy`.  The
session update is `if offset + written > uploadedSize { update }`, leaving
`uploaded_size` unchanged otherwise. -/
def UploadChunkHandler (session : Option UploadSession) (userID : Nat) (now : Int)
    (formParseOk hasChunkFile openOk copyOk : Bool) (offsetField : Option Int)
    (written : Int) : ChunkUploadOutcome :=
  match GetSession session userID now with
  | Except.error _ => ⟨400, 0, sessionUploadedSize session⟩
  | Except.ok s =>
      if ¬ formParseOk then ⟨400, 0, s.uploadedSize⟩
      else if ¬ hasChunkFile then ⟨400, 0, s.uploadedSize⟩
      else
        let offset := offsetField.getD 0
        if ¬ openOk then ⟨500, offset, s.uploadedSize⟩
        else if offset < 0 then ⟨500, offset, s.uploadedSize⟩
        else if ¬ copyOk then ⟨500, offset, s.uploadedSize⟩
        else if s.uploadedSize < offset + written then ⟨200, offset, offset + written⟩
        else ⟨200, offset, s.uploadedSize⟩

/-! ## Processing pipeline, upload stage (`processAndUploadFile` of `unnamed/part_005`) -/

/-- A StoredChunk entry as accumulated by the upload loop
(`models.StoredChunk`, account ids abstracted to `Nat`). -/
structure StoredChunkRec where
  chunkID : Nat
  driveAccountID : Nat
  driveID : String
  driveFileID : String
  size : Int
  checksum : String
  startOffset : Int
  endOffset : Int
deriving DecidableEq

/-- Abstract results of the per-chunk external operations of the upload stage,
indexed by the 0-based chunk position, plus the results of the two post-loop
steps.  `addManifestOk` is recorded but never consulted: Go only logs a failed
`AddFileToManifest` ("Don't fail the entire upload"). -/
structure UploadStepEnv where
  uploadRes : Nat → Except String String
  checksumRes : Nat → Except String String
  accountDriveID : Nat → Except String String
  manifestRes : Nat → Except String (String × String)
  addManifestOk : Nat → Bool
  createStoredFileOk : Bool
  keyFileWriteOk : Bool

/-- Observable outcome of the processing pipeline from the upload stage on:
final session status and error message, the best-effort `DeleteDriveFile`
calls issued (account id, drive file id), and whether the StoredFile record
and the key file were created. -/
structure PipelineOutcome where
  finalStatus : String
  errorMessage : String
  deleted : List (Nat × String)
  storedFileCreated : Bool
  keyFileCreated : Bool
deriving DecidableEq

/-- The `for i, chunkPath := range chunkPaths` loop of `processAndUploadFile`:
upload the chunk, compute its checksum, resolve the account, fetch the
manifest, append a StoredChunk.  On an upload error at position `i` the loop
best-effort deletes every previously stored chunk (`j < i`) and fails with
`"Upload failed: <cause>"`; errors of the later per-chunk steps fail without
issuing any deletion. -/
def uploadChunksLoop (env : UploadStepEnv) :
    Nat → List StoredChunkRec → List ChunkPlan →
      Except (String × List (Nat × String)) (List StoredChunkRec)
  | _, stored, [] => Except.ok stored
  | i, stored, c :: cs =>
      match env.uploadRes i with
      | Except.error e =>
          Except.error ("Upload failed: " ++ e,
            stored.map (fun sc => (sc.driveAccountID, sc.driveFileID)))
      | Except.ok driveFileID =>
          match env.checksumRes i with
          | Except.error _ => Except.error ("Checksum calculation failed", [])
          | Except.ok checksum =>
              match env.accountDriveID i with
              | Except.error _ => Except.error ("Failed to get drive account", [])
              | Except.ok accDriveID =>
                  match env.manifestRes i with
                  | Except.error _ => Except.error ("Failed to update manifest", [])
                  | Except.ok manifest =>
                      let driveID := if accDriveID = "" then manifest.1 else accDriveID
                      uploadChunksLoop env (i + 1)
                        (stored ++ [⟨c.chunkID, c.driveAccountID, driveID, driveFileID,
                          c.size, checksum, c.startOffset, c.endOffset⟩]) cs

/-- `processAndUploadFile` of `unnamed/part_005` from step 5 (chunk upload) on
(the earlier obfuscate/plan/split stages fail before any drive upload and are
not needed for the modeled properties): run the upload loop, then create the
StoredFile record (step 6), then write the key file (step 7), then complete.
Any failure sets status `failed` with the stage's message and stops, so no
StoredFile record and no key file exist after an upload-stage failure. -/
def processAndUploadFile (env : UploadStepEnv) (plan : List ChunkPlan) : PipelineOutcome :=
  match uploadChunksLoop env 0 [] plan with
  | Except.error err => ⟨"failed", err.1, err.2, false, false⟩
  | Except.ok _ =>
      if ¬ env.createStoredFileOk then ⟨"failed", "Failed to save file metadata", [], false, false⟩
      else if ¬ env.keyFileWriteOk then
        ⟨"failed", "Key file generation failed", [], true, false⟩
      else ⟨"complete", "", [], true, true⟩

/-- Specification helper for the rollback property: the expected delete list
when chunks `0 ≤ j < n` of `cs` (with global indices starting at `i0`) were
uploaded as drive files `fids (i0 + j)`. -/
def expectedDeleted (fids : Nat → String) : Nat → List ChunkPlan → Nat → List (Nat × String)
  | _, _, 0 => []
  | _, [], _ + 1 => []
  | i0, c :: cs, n + 1 => (c.driveAccountID, fids i0) :: expectedDeleted fids (i0 + 1) cs n

/-- All four per-chunk external steps succeed at position `j`, the upload
returning drive file id `fids j`. -/
def stepsOk (env : UploadStepEnv) (fids : Nat → String) (j : Nat) : Prop :=
  env.uploadRes j = Except.ok (fids j) ∧
    (∃ c, env.checksumRes j = Except.ok c) ∧
    (∃ a, env.accountDriveID j = Except.ok a) ∧
    (∃ m, env.manifestRes j = Except.ok m)

/-! ## Download initiation (`unnamed` download handlers, `InitiateDownloadHandler`) -/

/-- The fields of a `models.StoredFile` consulted by `InitiateDownloadHandler`. -/
structure StoredFileRec where
  fileID : String
  obfuscationSeed : String
  status : String
deriving DecidableEq

/-- The fields of the submitted `models.KeyFile` consulted before a download
session is created. -/
structure KeyFileReq where
  fileID : String
  seed : String
deriving DecidableEq

/-- Observable outcome of `InitiateDownloadHandler`: HTTP status code and
whether a download session was created. -/
structure DownloadInitOutcome where
  statusCode : Nat
  sessionCreated : Bool
deriving DecidableEq

/-- `InitiateDownloadHandler` of the download handlers: multipart parse, key
file presence and parse, required-field check, StoredFile lookup
(`Except.ok none` = no record → 404), the seed comparison (mismatch → 401,
before any session is created), status checks, drive-availability check
(`accountsOk`/`chunksAvailable` abstract `ListUserDriveAccounts` and the
per-chunk drive check), and finally session creation. -/
def InitiateDownloadHandler (formParseOk hasKeyFile keyParseOk : Bool) (key : KeyFileReq)
    (storedLookup : Except String (Option StoredFileRec))
    (accountsOk chunksAvailable createSessionOk : Bool) : DownloadInitOutcome :=
  if ¬ formParseOk then ⟨400, false⟩
  else if ¬ hasKeyFile then ⟨400, false⟩
  else if ¬ keyParseOk then ⟨400, false⟩
  else if key.fileID = "" ∨ key.seed = "" then ⟨400, false⟩
  else
    match storedLookup with
    | Except.error _ => ⟨500, false⟩
    | Except.ok none => ⟨404, false⟩
    | Except.ok (some sf) =>
        if sf.obfuscationSeed ≠ key.seed then ⟨401, false⟩
        else if sf.status = "incomplete" then ⟨400, false⟩
        else if sf.status = "deleted" then ⟨404, false⟩
        else if ¬ accountsOk then ⟨500, false⟩
        else if ¬ chunksAvailable then ⟨400, false⟩
        else if ¬ createSessionOk then ⟨500, false⟩
        else ⟨200, true⟩

/-! ## Theorems: obfuscation codec -/

theorem maxOffsetOf_le (fileSize minGap : Nat) :
    (maxOffsetOf fileSize minGap).toNat ≤ fileSize := by
  simp only [maxOffsetOf]
  split <;> omega

/-- When `generateInjectionOffsets` succeeds with a positive count, the
modulus is positive and the result is a sorted list of `numInjections`
offsets, all below the modulus. -/
theorem generateInjectionOffsets_some (ks : Nat → Nat) (fileSize numInjections minGap : Nat)
    (offs : List Nat) (hk : numInjections ≠ 0)
    (h : generateInjectionOffsets ks fileSize numInjections minGap = some offs) :
    1 ≤ (maxOffsetOf fileSize minGap).toNat ∧ offs.Sorted (· ≤ ·) ∧
      offs.length = numInjections ∧ ∀ o ∈ offs, o < (maxOffsetOf fileSize minGap).toNat := by
  simp only [generateInjectionOffsets, if_neg hk] at h
  by_cases h0 : (maxOffsetOf fileSize minGap).toNat = 0
  · rw [if_pos h0] at h
    exact absurd h (by simp)
  · rw [if_neg h0] at h
    have hperm := List.perm_insertionSort (α := Nat) (· ≤ ·)
      ((List.range numInjections).map
        (fun i => beUint64 ks (8 * i) % (maxOffsetOf fileSize minGap).toNat))
    injection h with h
    refine ⟨by omega, ?_, ?_, ?_⟩
    · rw [← h]
      exact List.sorted_insertionSort _ _
    · rw [← h, hperm.length_eq]
      simp
    · intro o ho
      rw [← h, hperm.mem_iff] at ho
      simp only [List.mem_map, List.mem_range] at ho
      obtain ⟨i, _, hi⟩ := ho
      rw [← hi]
      exact Nat.mod_lt _ (by omega)

theorem noiseBlocks_length (ks : Nat → Nat) (start blockSize count : Nat) :
    (noiseBlocks ks start blockSize count).length = count := by
  simp [noiseBlocks]

theorem noiseBlocks_mem_length (ks : Nat → Nat) (start blockSize count : Nat) :
    ∀ nb ∈ noiseBlocks ks start blockSize count, nb.length = blockSize := by
  intro nb hnb
  simp only [noiseBlocks, List.mem_map] at hnb
  obtain ⟨j, _, hj⟩ := hnb
  rw [← hj]
  simp [noiseBlock]

theorem noiseBlocks_sum (ks : Nat → Nat) (start blockSize count : Nat) :
    ((noiseBlocks ks start blockSize count).map List.length).sum = count * blockSize := by
  simp only [noiseBlocks, List.map_map]
  have hconst : (List.length ∘ fun j => noiseBlock ks (start + j * blockSize) blockSize) =
      fun _ => blockSize := by
    funext j
    simp [noiseBlock]
  rw [hconst, List.map_const', List.sum_replicate, smul_eq_mul, List.length_range]

/-- Injecting one noise block per sorted in-range offset grows the stream by
the total noise length. -/
theorem streamInjectNoise_length :
    ∀ (os : List Nat) (nbs : List (List Nat)) (cur : Nat) (buf : List Nat),
      os.Sorted (· ≤ ·) → nbs.length = os.length →
      (∀ o ∈ os, cur ≤ o ∧ o ≤ cur + buf.length) →
      (streamInjectNoise cur buf os nbs).length = buf.length + (nbs.map List.length).sum
  | [], nbs, cur, buf, _, hlen, _ => by
      cases nbs with
      | nil => simp [streamInjectNoise]
      | cons _ _ => simp at hlen
  | o :: os, nbs, cur, buf, hsort, hlen, hb => by
      cases nbs with
      | nil => simp at hlen
      | cons nb nbs =>
          rw [List.sorted_cons] at hsort
          have hob := hb o (List.mem_cons_self _ _)
          have hbounds : ∀ o' ∈ os, o ≤ o' ∧ o' ≤ o + (buf.drop (o - cur)).length := by
            intro o' ho'
            have h1 := hb o' (List.mem_cons_of_mem _ ho')
            have h2 := hsort.1 o' ho'
            rw [List.length_drop]
            omega
          have ih := streamInjectNoise_length os nbs o (buf.drop (o - cur)) hsort.2
            (by simpa using hlen) hbounds
          simp only [streamInjectNoise, List.length_append, ih]
          rw [List.length_take, List.length_drop]
          simp only [List.map_cons, List.sum_cons]
          omega

/-- Key inverse lemma: removing `blockSize` bytes at every adjusted offset
(`adjusted[i] = offsets[i] + D + i * blockSize`) from the injected stream
recovers the original bytes.  `cur` is the original-coordinates position of
`buf`, `cur + D` the obfuscated-coordinates position (`D` = noise already
inserted upstream). -/
theorem skipNoiseBlocks_streamInjectNoise (B : Nat) :
    ∀ (os : List Nat) (nbs : List (List Nat)) (cur D : Nat) (buf : List Nat),
      os.Sorted (· ≤ ·) → nbs.length = os.length → (∀ nb ∈ nbs, nb.length = B) →
      (∀ o ∈ os, cur ≤ o ∧ o ≤ cur + buf.length) →
      skipNoiseBlocks B (cur + D) (streamInjectNoise cur buf os nbs)
        (adjustOffsetsAux B D os) = buf
  | [], nbs, cur, D, buf, _, hlen, _, _ => by
      cases nbs with
      | nil => simp [adjustOffsetsAux, streamInjectNoise, skipNoiseBlocks]
      | cons _ _ => simp at hlen
  | o :: os, nbs, cur, D, buf, hsort, hlen, hnb, hb => by
      cases nbs with
      | nil => simp at hlen
      | cons nb nbs =>
          rw [List.sorted_cons] at hsort
          have hob := hb o (List.mem_cons_self _ _)
          have hnbB : nb.length = B := hnb nb (List.mem_cons_self _ _)
          have htl : (buf.take (o - cur)).length = o - cur := by
            rw [List.length_take]
            omega
          simp only [adjustOffsetsAux, streamInjectNoise, skipNoiseBlocks]
          have e1 : o + D - (cur + D) = o - cur := by omega
          have e2 : o + D + B - (cur + D) = (o - cur) + B := by omega
          rw [e1, e2]
          have etake : (buf.take (o - cur) ++ (nb ++ streamInjectNoise o (buf.drop (o - cur)) os nbs)).take
              (o - cur) = buf.take (o - cur) := List.take_left' htl
          have edrop : (buf.take (o - cur) ++ (nb ++ streamInjectNoise o (buf.drop (o - cur)) os nbs)).drop
              ((o - cur) + B) = streamInjectNoise o (buf.drop (o - cur)) os nbs := by
            have h0 : (o - cur) + B = (buf.take (o - cur)).length + B := by rw [htl]
            rw [h0, List.drop_append, List.drop_left' hnbB]
          simp only [List.append_assoc]
          rw [etake, edrop]
          have hbounds : ∀ o' ∈ os, o ≤ o' ∧ o' ≤ o + (buf.drop (o - cur)).length := by
            intro o' ho'
            have h1 := hb o' (List.mem_cons_of_mem _ ho')
            have h2 := hsort.1 o' ho'
            rw [List.length_drop]
            omega
          have e3 : o + D + B = o + (D + B) := by omega
          rw [e3, skipNoiseBlocks_streamInjectNoise B os nbs o (D + B) (buf.drop (o - cur))
            hsort.2 (by simpa using hlen) (fun x hx => hnb x (List.mem_cons_of_mem _ hx)) hbounds]
          exact List.take_append_drop _ _

theorem skipNoiseBlocks_nil (B : Nat) : ∀ (os : List Nat) (cur : Nat),
    skipNoiseBlocks B cur [] os = []
  | [], _ => rfl
  | _ :: os, cur => by
      simp only [skipNoiseBlocks, List.take_nil, List.drop_nil, List.nil_append]
      exact skipNoiseBlocks_nil B os _

/-- Adjusted offsets are separated by at least `blockSize`. -/
theorem adjustOffsetsAux_chain (B : Nat) : ∀ (os : List Nat) (D : Nat),
    os.Sorted (· ≤ ·) →
    List.Chain' (fun a b => a + B ≤ b) (adjustOffsetsAux B D os)
  | [], _, _ => List.chain'_nil
  | o :: os, D, hsort => by
      rw [List.sorted_cons] at hsort
      simp only [adjustOffsetsAux]
      rw [List.chain'_cons']
      refine ⟨?_, adjustOffsetsAux_chain B os (D + B) hsort.2⟩
      intro b hb
      cases os with
      | nil => simp [adjustOffsetsAux] at hb
      | cons o' os' =>
          simp only [adjustOffsetsAux, List.head?_cons, Option.mem_def,
            Option.some.injEq] at hb
          have := hsort.1 o' (List.mem_cons_self _ _)
          omega

/-- Every adjusted offset plus its block fits under
`N + D + (number of offsets) * blockSize`. -/
theorem adjustOffsetsAux_bound (B N : Nat) : ∀ (os : List Nat) (D : Nat),
    (∀ o ∈ os, o < N) →
    ∀ a ∈ adjustOffsetsAux B D os, a + B ≤ N + D + os.length * B
  | [], _, _ => by simp [adjustOffsetsAux]
  | o :: os, D, hlt => by
      intro a ha
      simp only [adjustOffsetsAux, List.mem_cons] at ha
      rcases ha with rfl | ha
      · have := hlt o (List.mem_cons_self _ _)
        simp only [List.length_cons, Nat.succ_mul]
        omega
      · have ih := adjustOffsetsAux_bound B N os (D + B)
          (fun x hx => hlt x (List.mem_cons_of_mem _ hx)) a ha
        simp only [List.length_cons, Nat.succ_mul]
        omega

/-- The adjusted-offset list satisfies the removal loop's entry invariant at
position 0. -/
theorem adjustOffsetsAux_headOk (B : Nat) (os : List Nat) :
    noiseHeadOk B (adjustOffsetsAux B 0 os) 0 0 := by
  cases os with
  | nil => exact trivial
  | cons o os' => exact Or.inl (Nat.zero_le _)

/-- One buffer step of the Go removal loop, related to the idealized
`skipNoiseBlocks`: under `blockSize ≤ 32 * 1024` and the loop invariants
(pending offsets separated by at least `blockSize`, each block ending inside
the remaining data, head invariant), the emitted bytes followed by the
idealized removal of the remaining data under the returned pending offsets
equal the idealized removal of the current data, and the invariants are
re-established for the next buffer. -/
theorem removeChunkLoop_spec (B : Nat) (hB : 1 ≤ B) (hBbuf : B ≤ 32 * 1024)
    (cur : Nat) (chunk rest : List Nat)
    (hfull : rest ≠ [] → chunk.length = 32 * 1024) :
    ∀ (os : List Nat) (ws : Nat),
      List.Chain' (fun a b => a + B ≤ b) os →
      (∀ o ∈ os, o + B ≤ cur + chunk.length + rest.length) →
      ws ≤ chunk.length →
      noiseHeadOk B os cur ws →
      ((removeChunkLoop B cur chunk os ws).1 ++
          skipNoiseBlocks B (cur + chunk.length) rest (removeChunkLoop B cur chunk os ws).2 =
        skipNoiseBlocks B (cur + ws) (chunk.drop ws ++ rest) os) ∧
      List.Chain' (fun a b => a + B ≤ b) (removeChunkLoop B cur chunk os ws).2 ∧
      (∀ o ∈ (removeChunkLoop B cur chunk os ws).2,
        o + B ≤ cur + chunk.length + rest.length) ∧
      noiseHeadOk B (removeChunkLoop B cur chunk os ws).2 (cur + chunk.length) 0
  | [], ws, _, _, _, _ => by
      refine ⟨?_, List.chain'_nil, by simp [removeChunkLoop], by simp [removeChunkLoop, noiseHeadOk]⟩
      simp [removeChunkLoop, skipNoiseBlocks]
  | o :: os, ws, hchain, hbound, hws, hhead => by
      have hhead' : cur + ws ≤ o ∨ (ws = 0 ∧ o < cur ∧ cur < o + B) := hhead
      have hchain' : List.Chain' (fun a b => a + B ≤ b) os := hchain.tail
      have hbound' : ∀ x ∈ os, x + B ≤ cur + chunk.length + rest.length :=
        fun x hx => hbound x (List.mem_cons_of_mem _ hx)
      have hrel : ∀ h ∈ os.head?, o + B ≤ h := (List.chain'_cons'.mp hchain).1
      by_cases hA : cur ≤ o ∧ o < cur + chunk.length
      · have hwso : cur + ws ≤ o := by
          rcases hhead' with h | ⟨_, h2, _⟩
          · exact h
          · omega
        by_cases hA1 : o + B ≤ cur + chunk.length
        · -- block fully inside this buffer: consume it and recurse
          have hmin : min (o + B - cur) chunk.length = o + B - cur :=
            min_eq_left (by omega)
          have hhead2 : noiseHeadOk B os cur (o + B - cur) := by
            cases os with
            | nil => exact trivial
            | cons o' os' => exact Or.inl (by have := hrel o' rfl; omega)
          obtain ⟨ih1, ih2, ih3, ih4⟩ := removeChunkLoop_spec B hB hBbuf cur chunk rest
            hfull os (o + B - cur) hchain' hbound' (by omega) hhead2
          simp only [removeChunkLoop, if_pos hA, if_pos hA1, hmin]
          refine ⟨?_, ih2, ih3, ih4⟩
          rw [List.append_assoc, ih1]
          simp only [skipNoiseBlocks]
          have htake : (chunk.drop ws ++ rest).take (o - (cur + ws)) =
              (if ws < o - cur then (chunk.drop ws).take (o - cur - ws) else []) := by
            rw [List.take_append_of_le_length (by rw [List.length_drop]; omega)]
            by_cases hlt : ws < o - cur
            · rw [if_pos hlt]
              congr 1
              omega
            · rw [if_neg hlt]
              have h0 : o - (cur + ws) = 0 := by omega
              rw [h0, List.take_zero]
          have hdrop : (chunk.drop ws ++ rest).drop (o + B - (cur + ws)) =
              chunk.drop (o + B - cur) ++ rest := by
            rw [List.drop_append_of_le_length (by rw [List.length_drop]; omega),
              List.drop_drop]
            congr 2
            omega
          have hpos : cur + (o + B - cur) = o + B := by omega
          rw [htake, hdrop, hpos]
        · -- block extends beyond this buffer: break, keeping the offset pending
          have hmin : min (o + B - cur) chunk.length = chunk.length :=
            min_eq_right (by omega)
          simp only [removeChunkLoop, if_pos hA, if_neg hA1, hmin, List.drop_length,
            List.append_nil]
          refine ⟨?_, hchain, hbound, Or.inr ⟨rfl, hA.2, by omega⟩⟩
          simp only [skipNoiseBlocks]
          have htake : (chunk.drop ws ++ rest).take (o - (cur + ws)) =
              (if ws < o - cur then (chunk.drop ws).take (o - cur - ws) else []) := by
            rw [List.take_append_of_le_length (by rw [List.length_drop]; omega)]
            by_cases hlt : ws < o - cur
            · rw [if_pos hlt]
              congr 1
              omega
            · rw [if_neg hlt]
              have h0 : o - (cur + ws) = 0 := by omega
              rw [h0, List.take_zero]
          have hlen2 : o + B - (cur + ws) = (chunk.drop ws).length + (o + B - (cur + chunk.length)) := by
            rw [List.length_drop]
            omega
          have htake0 : o - (cur + chunk.length) = 0 := by omega
          rw [htake, hlen2, List.drop_append, htake0, List.take_zero, List.nil_append]
      · by_cases hBr : o < cur
        · -- block started in an earlier buffer: skip its tail, advance
          obtain ⟨hws0, hcurlt⟩ : ws = 0 ∧ cur < o + B := by
            rcases hhead' with h | ⟨h1, _, h3⟩
            · omega
            · exact ⟨h1, h3⟩
          subst hws0
          have hnoclamp : o + B - cur ≤ chunk.length := by
            by_cases hrest : rest = []
            · have hb := hbound o (List.mem_cons_self _ _)
              rw [hrest] at hb
              simp only [List.length_nil] at hb
              omega
            · have := hfull hrest
              omega
          have hmin : min (o + B - cur) chunk.length = o + B - cur :=
            min_eq_left hnoclamp
          have hhead2 : noiseHeadOk B os cur (o + B - cur) := by
            cases os with
            | nil => exact trivial
            | cons o' os' => exact Or.inl (by have := hrel o' rfl; omega)
          obtain ⟨ih1, ih2, ih3, ih4⟩ := removeChunkLoop_spec B hB hBbuf cur chunk rest
            hfull os (o + B - cur) hchain' hbound' hnoclamp hhead2
          simp only [removeChunkLoop, if_neg hA, if_pos hBr, if_pos hcurlt, hmin]
          refine ⟨?_, ih2, ih3, ih4⟩
          rw [ih1]
          simp only [skipNoiseBlocks, List.drop_zero]
          have htake0 : o - (cur + 0) = 0 := by omega
          have hdrop : (chunk ++ rest).drop (o + B - (cur + 0)) =
              chunk.drop (o + B - cur) ++ rest := by
            rw [Nat.add_zero, List.drop_append_of_le_length hnoclamp]
          have hpos : cur + (o + B - cur) = o + B := by omega
          rw [htake0, List.take_zero, List.nil_append, hdrop, hpos]
        · -- future block: break here
          have hge : cur + chunk.length ≤ o := by
            rcases Decidable.not_and_iff_or_not.mp hA with h | h
            · omega
            · omega
          have hwso : cur + ws ≤ o := by
            rcases hhead' with h | ⟨_, h2, _⟩
            · exact h
            · omega
          simp only [removeChunkLoop, if_neg hA, if_neg hBr]
          refine ⟨?_, hchain, hbound, Or.inl (by omega)⟩
          simp only [skipNoiseBlocks]
          have h1 : o - (cur + ws) = (chunk.drop ws).length + (o - (cur + chunk.length)) := by
            rw [List.length_drop]
            omega
          have h2 : o + B - (cur + ws) =
              (chunk.drop ws).length + (o + B - (cur + chunk.length)) := by
            rw [List.length_drop]
            omega
          rw [h1, h2, List.take_append, List.drop_append, List.append_assoc]

/-- Bounded recursion wrapper for the buffered/idealized equality: `N` bounds
the number of bytes left to read. -/
theorem streamRemoveNoise_eq_aux (B : Nat) (hB : 1 ≤ B) (hBbuf : B ≤ 32 * 1024) :
    ∀ (N : Nat) (input : List Nat), input.length ≤ N → ∀ (cur : Nat) (os : List Nat),
      List.Chain' (fun a b => a + B ≤ b) os →
      (∀ o ∈ os, o + B ≤ cur + input.length) →
      noiseHeadOk B os cur 0 →
      streamRemoveNoise B cur input os = skipNoiseBlocks B cur input os
  | 0, input, hN, cur, os, _, _, _ => by
      have hnil : input = [] := List.eq_nil_of_length_eq_zero (by omega)
      subst hnil
      rw [streamRemoveNoise]
      simp [skipNoiseBlocks_nil]
  | N + 1, input, hN, cur, os, hchain, hbound, hhead => by
      by_cases hin : input.isEmpty = true
      · rw [streamRemoveNoise, dif_pos hin, List.isEmpty_iff.mp hin, skipNoiseBlocks_nil]
      · rw [streamRemoveNoise, dif_neg hin]
        dsimp only
        have hne : input ≠ [] := fun hx => hin (by simp [hx])
        have hpos : 0 < input.length := List.length_pos.mpr hne
        have hfull : input.drop (32 * 1024) ≠ [] →
            (input.take (32 * 1024)).length = 32 * 1024 := by
          intro hr
          have hgt : 32 * 1024 < input.length := by
            by_contra hc
            push_neg at hc
            exact hr (List.drop_eq_nil_of_le hc)
          rw [List.length_take]
          omega
        have hbound' : ∀ o ∈ os,
            o + B ≤ cur + (input.take (32 * 1024)).length + (input.drop (32 * 1024)).length := by
          intro o ho
          have hlen : (input.take (32 * 1024)).length + (input.drop (32 * 1024)).length =
              input.length := by
            rw [List.length_take, List.length_drop]
            omega
          have := hbound o ho
          omega
        obtain ⟨heq, hch2, hbd2, hhd2⟩ := removeChunkLoop_spec B hB hBbuf cur
          (input.take (32 * 1024)) (input.drop (32 * 1024)) hfull os 0 hchain hbound'
          (Nat.zero_le _) hhead
        have hdroplen : (input.drop (32 * 1024)).length ≤ N := by
          rw [List.length_drop]
          omega
        have hrec := streamRemoveNoise_eq_aux B hB hBbuf N (input.drop (32 * 1024)) hdroplen
          (cur + (input.take (32 * 1024)).length)
          (removeChunkLoop B cur (input.take (32 * 1024)) os 0).2 hch2
          (fun o ho => by have := hbd2 o ho; omega) hhd2
        rw [hrec, heq]
        simp only [Nat.add_zero, List.drop_zero, List.take_append_drop]

/-- For `blockSize` at most the 32 KiB read-buffer size, the buffered Go
removal loop computes exactly the idealized skip-`blockSize`-at-each-offset
transformation, for pending offsets separated by at least `blockSize` whose
blocks end inside the data. -/
theorem streamRemoveNoise_eq_skipNoiseBlocks (B : Nat) (hB : 1 ≤ B) (hBbuf : B ≤ 32 * 1024)
    (input : List Nat) (cur : Nat) (os : List Nat)
    (hchain : List.Chain' (fun a b => a + B ≤ b) os)
    (hbound : ∀ o ∈ os, o + B ≤ cur + input.length)
    (hhead : noiseHeadOk B os cur 0) :
    streamRemoveNoise B cur input os = skipNoiseBlocks B cur input os :=
  streamRemoveNoise_eq_aux B hB hBbuf input.length input le_rfl cur os hchain hbound hhead

/-- Claim C1 (amended): for every input byte stream, keystream (seed) and
parameters with `1 ≤ blockSize ≤ 32 * 1024` — the regime in which a noise
block spans at most two of the inverse's 32 KiB read buffers — if
`ObfuscateFile` produces an output, then `DeobfuscateFile` with the same seed,
parameters and original size reproduces the input bit-for-bit.  (Beyond
`32 * 1024` the buffered removal loop advances past a noise block that still
extends into the following read buffer and leaks noise bytes into the output,
see the counterexample.) -/
theorem obfuscate_deobfuscate_roundtrip
    (ks : Nat → Nat) (input : List Nat) (blockSize minGap targetOverhead : Nat)
    (out : List Nat) (hB : 1 ≤ blockSize) (hBbuf : blockSize ≤ 32 * 1024)
    (h : ObfuscateFile ks input blockSize minGap targetOverhead = some out) :
    DeobfuscateFile ks out input.length blockSize minGap = some input := by
  simp only [ObfuscateFile] at h
  rcases hgen : generateInjectionOffsets ks input.length
      (if targetOverhead / blockSize = 0 then 1 else targetOverhead / blockSize) minGap with
    _ | offs
  · rw [hgen] at h
    exact absurd h (by simp)
  · rw [hgen] at h
    simp only [Option.some.injEq] at h
    have hk : (if targetOverhead / blockSize = 0 then 1 else targetOverhead / blockSize) ≠ 0 := by
      split <;> simp_all
    obtain ⟨hmax1, hsort, hlenoffs, hlt⟩ :=
      generateInjectionOffsets_some ks input.length _ minGap offs hk hgen
    have hmaxle := maxOffsetOf_le input.length minGap
    have hN : 1 ≤ input.length := le_trans hmax1 hmaxle
    have hbounds : ∀ o ∈ offs, 0 ≤ o ∧ o ≤ 0 + input.length := by
      intro o ho
      have := hlt o ho
      omega
    have hnbslen := noiseBlocks_length ks
      (8 * (if targetOverhead / blockSize = 0 then 1 else targetOverhead / blockSize)) blockSize
      (if targetOverhead / blockSize = 0 then 1 else targetOverhead / blockSize)
    have houtlen : out.length = input.length +
        (if targetOverhead / blockSize = 0 then 1 else targetOverhead / blockSize) * blockSize := by
      rw [← h, streamInjectNoise_length offs _ 0 input hsort (by rw [hnbslen, hlenoffs]) hbounds,
        noiseBlocks_sum]
    set k := (if targetOverhead / blockSize = 0 then 1 else targetOverhead / blockSize) with hkdef
    simp only [DeobfuscateFile]
    rw [if_neg (by omega), if_neg (by omega), if_neg (by omega)]
    have hnz : out.length - input.length = k * blockSize := by omega
    rw [hnz]
    rw [if_neg (by positivity), if_neg (by simp [Nat.mul_mod_left])]
    rw [Nat.mul_div_cancel _ (by omega)]
    rw [hgen]
    have hoffsne : offs.isEmpty = false := by
      cases offs with
      | nil => simp at hlenoffs; omega
      | cons _ _ => rfl
    simp only [adjustOffsetsForProcessedFile, hoffsne, Bool.false_eq_true, or_false,
      if_neg (by omega : ¬ blockSize = 0)]
    have hchain := adjustOffsetsAux_chain blockSize offs 0 hsort
    have hadjbound : ∀ a ∈ adjustOffsetsAux blockSize 0 offs,
        a + blockSize ≤ 0 + out.length := by
      intro a ha
      have hb := adjustOffsetsAux_bound blockSize input.length offs 0
        (fun o ho => lt_of_lt_of_le (hlt o ho) hmaxle) a ha
      rw [hlenoffs] at hb
      omega
    rw [streamRemoveNoise_eq_skipNoiseBlocks blockSize hB hBbuf out 0
      (adjustOffsetsAux blockSize 0 offs) hchain hadjbound
      (adjustOffsetsAux_headOk blockSize offs)]
    rw [← h]
    have := skipNoiseBlocks_streamInjectNoise blockSize offs
      (noiseBlocks ks (8 * k) blockSize k) 0 0 input hsort (by rw [hnbslen, hlenoffs])
      (noiseBlocks_mem_length ks (8 * k) blockSize k) hbounds
    simpa using this

/-- Claim C1 witness: a concrete round trip (input `[1]`, block size 1,
min gap 0, keystream constantly 0). -/
theorem obfuscate_deobfuscate_roundtrip_witness :
    DeobfuscateFile (fun _ => 0) [0, 1] ([1] : List Nat).length 1 0 = some [1] :=
  obfuscate_deobfuscate_roundtrip (fun _ => 0) [1] 1 0 0 [0, 1] (by decide) (by norm_num)
    (by decide)

/-- Claim C1 counterexample: block size 32770 is legal (positive), yet the
roundtrip fails.  The input is 32768 zero bytes; the keystream makes the
single injection offset 32767, so the noise block occupies obfuscated
positions `[32767, 65537)` of the 65538-byte output, spanning three 32 KiB
read buffers of the inverse.  Processing buffer 2 the removal loop skips to
the buffer's end but still advances `offsetIdx` although the block extends
one byte further, so that byte (obfuscated position 65536 — noise, not data)
is emitted with buffer 3: deobfuscation returns 32769 bytes instead of the
original 32768. -/
theorem roundtrip_large_block_counterexample :
    ObfuscateFile cexKeystream (List.replicate 32768 0) 32770 0 0 =
      some (List.replicate 65538 0) ∧
    DeobfuscateFile cexKeystream (List.replicate 65538 0)
      (List.replicate 32768 (0 : Nat)).length 32770 0 = some (List.replicate 32769 0) ∧
    some (List.replicate 32769 (0 : Nat)) ≠ some (List.replicate 32768 (0 : Nat)) := by
  have hmax : (maxOffsetOf 32768 0).toNat = 32768 := by decide
  have hgen : generateInjectionOffsets cexKeystream 32768 1 0 = some [32767] := by decide
  have hblock : noiseBlock cexKeystream 8 32770 = List.replicate 32770 0 := by
    rw [List.eq_replicate_iff]
    constructor
    · simp [noiseBlock]
    · intro b hb
      simp only [noiseBlock, List.mem_map, List.mem_range] at hb
      obtain ⟨j, hj, rfl⟩ := hb
      simp only [cexKeystream]
      rw [if_neg (by omega), if_neg (by omega)]
  have hnoise : noiseBlocks cexKeystream 8 32770 1 = [List.replicate 32770 0] := by
    have hr1 : List.range 1 = [0] := rfl
    simp only [noiseBlocks, hr1, List.map_cons, List.map_nil]
    norm_num [hblock]
  have hinj : streamInjectNoise 0 (List.replicate 32768 (0 : Nat)) [32767]
      [List.replicate 32770 0] = List.replicate 65538 0 := by
    simp only [streamInjectNoise, Nat.sub_zero, List.take_replicate, List.drop_replicate]
    norm_num
    rw [← List.replicate_succ']
  have hk : (if (0 : Nat) / 32770 = 0 then 1 else (0 : Nat) / 32770) = 1 := by decide
  have hobf' : ∀ (input : List Nat), input.length = 32768 →
      ObfuscateFile cexKeystream input 32770 0 0 =
        some (streamInjectNoise 0 input [32767] [List.replicate 32770 0]) := by
    intro input hlen
    unfold ObfuscateFile
    rw [hlen, hk]
    dsimp only
    rw [hgen]
    dsimp only
    rw [show (8 : Nat) * 1 = 8 from by norm_num, hnoise]
  have hobf : ObfuscateFile cexKeystream (List.replicate 32768 (0 : Nat)) 32770 0 0 =
      some (List.replicate 65538 0) := by
    rw [hobf' (List.replicate 32768 0) (List.length_replicate _ _), hinj]
  have hne1 : ¬((List.replicate 65538 (0 : Nat)).isEmpty = true) := by
    simp [List.isEmpty_iff]
  have hne2 : ¬((List.replicate 32770 (0 : Nat)).isEmpty = true) := by
    simp [List.isEmpty_iff]
  have hne3 : ¬((List.replicate 2 (0 : Nat)).isEmpty = true) := by
    simp [List.isEmpty_iff]
  have hc1 : removeChunkLoop 32770 0 (List.replicate 32768 (0 : Nat)) [32767] 0 =
      (List.replicate 32767 0, [32767]) := by
    norm_num [removeChunkLoop, List.take_replicate, List.drop_replicate]
  have hc2 : removeChunkLoop 32770 32768 (List.replicate 32768 (0 : Nat)) [32767] 0 =
      ([], []) := by
    norm_num [removeChunkLoop, List.take_replicate, List.drop_replicate]
  have hc3 : removeChunkLoop 32770 65536 (List.replicate 2 (0 : Nat)) [] 0 =
      (List.replicate 2 0, []) := by
    norm_num [removeChunkLoop]
  have hlast : streamRemoveNoise 32770 65538 [] [] = [] := by
    rw [streamRemoveNoise]
    simp
  have hrem : streamRemoveNoise 32770 0 (List.replicate 65538 (0 : Nat)) [32767] =
      List.replicate 32769 0 := by
    rw [streamRemoveNoise, dif_neg hne1]
    dsimp only
    rw [List.take_replicate, List.drop_replicate]
    norm_num
    rw [hc1]
    dsimp only
    rw [streamRemoveNoise, dif_neg hne2]
    dsimp only
    rw [List.take_replicate, List.drop_replicate]
    norm_num
    rw [hc2]
    dsimp only
    rw [streamRemoveNoise, dif_neg hne3]
    dsimp only
    rw [List.take_replicate, List.drop_replicate]
    norm_num
    rw [hc3]
    dsimp only
    rw [hlast]
    rw [List.append_nil, ← List.replicate_add]
  have hadj : adjustOffsetsForProcessedFile [32767] 32770 = [32767] := by
    norm_num [adjustOffsetsForProcessedFile, adjustOffsetsAux]
  have hdeob' : ∀ (processed : List Nat), processed.length = 65538 →
      DeobfuscateFile cexKeystream processed 32768 32770 0 =
        some (streamRemoveNoise 32770 0 processed [32767]) := by
    intro processed hlen
    unfold DeobfuscateFile
    rw [hlen]
    rw [if_neg (by decide), if_neg (by decide), if_neg (by decide)]
    rw [show (65538 : Nat) - 32768 = 32770 from by norm_num]
    dsimp only
    rw [if_neg (by decide), if_neg (by decide)]
    rw [show (32770 : Nat) / 32770 = 1 from by norm_num, hgen]
    dsimp only
    rw [hadj]
  have hdeob : DeobfuscateFile cexKeystream (List.replicate 65538 (0 : Nat)) 32768 32770 0 =
      some (List.replicate 32769 0) := by
    rw [hdeob' (List.replicate 65538 0) (List.length_replicate _ _), hrem]
  refine ⟨hobf, ?_, ?_⟩
  · rw [List.length_replicate]
    exact hdeob
  · intro hcontra
    rw [Option.some.injEq] at hcontra
    have hlen := congrArg List.length hcontra
    simp only [List.length_replicate] at hlen
    exact absurd hlen (by norm_num)

/-- Claim C2 counterexample: for `fileSize = minGap` (here both 4096, the
default min gap) the modulus is `0`, not `max(1, N − g) = 1`, and offset
generation divides by zero (modeled as `none`) instead of terminating
normally. -/
theorem generateInjectionOffsets_div_by_zero :
    maxOffsetOf 4096 4096 = 0 ∧
      generateInjectionOffsets (fun _ => 0) 4096 1 4096 = none := by
  constructor
  · decide
  · decide

/-- Claim C2 (amended): each candidate offset is an 8-byte big-endian uint64
reduced modulo `N − g` when `g < N` and modulo `N` when `N < g`; for every
`N ≥ 1` with `N ≠ g` this modulus is at least 1, so generation never divides
by zero and returns `numInjections` offsets, each below the modulus.  (At
`N = g` the modulus is 0 and the code divides by zero, see the
counterexample.) -/
theorem generateInjectionOffsets_modulus (ks : Nat → Nat)
    (fileSize numInjections minGap : Nat) (hN : 1 ≤ fileSize) (hNg : fileSize ≠ minGap) :
    1 ≤ (maxOffsetOf fileSize minGap).toNat ∧
      (maxOffsetOf fileSize minGap).toNat =
        (if minGap < fileSize then fileSize - minGap else fileSize) ∧
      ∃ offs, generateInjectionOffsets ks fileSize numInjections minGap = some offs ∧
        offs.length = numInjections ∧
        ∀ o ∈ offs, o < (maxOffsetOf fileSize minGap).toNat := by
  have hmax : (maxOffsetOf fileSize minGap).toNat =
      (if minGap < fileSize then fileSize - minGap else fileSize) := by
    simp only [maxOffsetOf]
    split <;> split <;> omega
  have h1 : 1 ≤ (maxOffsetOf fileSize minGap).toNat := by
    rw [hmax]
    split <;> omega
  refine ⟨h1, hmax, ?_⟩
  by_cases hk : numInjections = 0
  · subst hk
    exact ⟨[], by simp [generateInjectionOffsets], rfl, by simp⟩
  · rcases hgen : generateInjectionOffsets ks fileSize numInjections minGap with _ | offs
    · exfalso
      simp only [generateInjectionOffsets, if_neg hk] at hgen
      rw [if_neg (by omega)] at hgen
      exact absurd hgen (by simp)
    · obtain ⟨_, _, hlen, hlt⟩ :=
        generateInjectionOffsets_some ks fileSize numInjections minGap offs hk hgen
      exact ⟨offs, rfl, hlen, hlt⟩

/-- Claim C2 amended-theorem witness at `N = 5`, `g = 4096`, `k = 2`. -/
theorem generateInjectionOffsets_modulus_witness :
    1 ≤ (maxOffsetOf 5 4096).toNat ∧
      (maxOffsetOf 5 4096).toNat = (if 4096 < 5 then 5 - 4096 else 5) ∧
      ∃ offs, generateInjectionOffsets (fun i => i) 5 2 4096 = some offs ∧
        offs.length = 2 ∧ ∀ o ∈ offs, o < (maxOffsetOf 5 4096).toNat :=
  generateInjectionOffsets_modulus (fun i => i) 5 2 4096 (by decide) (by decide)

/-! ## Theorems: chunk planner -/

theorem int_tdiv_add_tdiv_le (a b t : Int) (ha : 0 ≤ a) (hb : 0 ≤ b) (ht : 0 < t) :
    a.tdiv t + b.tdiv t ≤ (a + b).tdiv t := by
  lift a to Nat using ha
  lift b to Nat using hb
  lift t to Nat using le_of_lt ht
  have hcast : ((a : Int) + b) = ((a + b : Nat) : Int) := by push_cast; ring
  rw [hcast, ← Int.ofNat_tdiv, ← Int.ofNat_tdiv, ← Int.ofNat_tdiv]
  have htn : 0 < t := by exact_mod_cast ht
  have hnat : (a : Nat) / t + b / t ≤ (a + b) / t := by
    rw [Nat.le_div_iff_mul_le htn]
    calc (a / t + b / t) * t = a / t * t + b / t * t := by ring
    _ ≤ a + b := Nat.add_le_add (Nat.div_mul_le_self _ _) (Nat.div_mul_le_self _ _)
  exact_mod_cast hnat

theorem int_tdiv_le_tdiv_of_le (a b t : Int) (ha : 0 ≤ a) (hab : a ≤ b) (ht : 0 < t) :
    a.tdiv t ≤ b.tdiv t := by
  lift b to Nat using le_trans ha hab
  lift a to Nat using ha
  lift t to Nat using le_of_lt ht
  rw [← Int.ofNat_tdiv, ← Int.ofNat_tdiv]
  exact_mod_cast Nat.div_le_div_right (by exact_mod_cast hab)

/-- Full specification of the greedy allocation loop: the final `remaining` is
non-negative whenever the initial one is, sizes account exactly for the
consumed bytes, offsets are contiguous, every chunk is positive, fits its
drive and references a drive of the list, and chunk ids are consecutive from
`cid`. -/
theorem greedyLoop_spec :
    ∀ (ds : List DriveSpaceInfo) (remaining offset : Int) (cid : Nat),
      (∀ d ∈ ds, 0 < d.freeSpace) →
      (0 ≤ remaining → 0 ≤ (greedyLoop remaining offset cid ds).2) ∧
      ((greedyLoop remaining offset cid ds).1.map ChunkPlan.size).sum =
        remaining - (greedyLoop remaining offset cid ds).2 ∧
      contiguousFrom offset (greedyLoop remaining offset cid ds).1 = true ∧
      (∀ c ∈ (greedyLoop remaining offset cid ds).1,
        0 < c.size ∧ ∃ d ∈ ds, d.accountID = c.driveAccountID ∧ c.size ≤ d.freeSpace) ∧
      (greedyLoop remaining offset cid ds).1.map ChunkPlan.chunkID =
        List.range' cid (greedyLoop remaining offset cid ds).1.length
  | [], remaining, offset, cid, _ => by
      simp [greedyLoop, contiguousFrom]
  | d :: ds, remaining, offset, cid, hfree => by
      by_cases hr : remaining ≤ 0
      · simp [greedyLoop, hr, contiguousFrom]
      · have hd := hfree d (List.mem_cons_self _ _)
        have ih := greedyLoop_spec ds
          (remaining - if d.freeSpace < remaining then d.freeSpace else remaining)
          (offset + if d.freeSpace < remaining then d.freeSpace else remaining) (cid + 1)
          (fun x hx => hfree x (List.mem_cons_of_mem _ hx))
        obtain ⟨ih0, ih1, ih2, ih3, ih4⟩ := ih
        simp only [greedyLoop, if_neg hr]
        refine ⟨?_, ?_, ?_, ?_, ?_⟩
        · intro _
          apply ih0
          split <;> omega
        · simp only [List.map_cons, List.sum_cons, ih1]
          ring
        · simp only [contiguousFrom, ih2]
          simp
        · intro c hc
          rcases List.mem_cons.mp hc with hc | hc
          · subst hc
            refine ⟨?_, d, List.mem_cons_self _ _, rfl, ?_⟩ <;>
              · dsimp only
                split <;> omega
          · obtain ⟨hpos, d', hd', he⟩ := ih3 c hc
            exact ⟨hpos, d', List.mem_cons_of_mem _ hd', he⟩
        · simp only [List.map_cons, ih4, List.length_cons, List.range'_succ]

/-- Full specification of the balanced allocation loop (same shape as the
greedy one; drives are consumed in order, zero-size assignments skipped). -/
theorem balancedLoop_spec (t : Int) (n : Nat) :
    ∀ (ds : List DriveSpaceInfo) (i : Nat) (remaining offset : Int) (cid : Nat),
      (0 ≤ remaining → 0 ≤ (balancedLoop t n i remaining offset cid ds).2) ∧
      ((balancedLoop t n i remaining offset cid ds).1.map ChunkPlan.size).sum =
        remaining - (balancedLoop t n i remaining offset cid ds).2 ∧
      contiguousFrom offset (balancedLoop t n i remaining offset cid ds).1 = true ∧
      (∀ c ∈ (balancedLoop t n i remaining offset cid ds).1,
        0 < c.size ∧ ∃ d ∈ ds, d.accountID = c.driveAccountID ∧ c.size ≤ d.freeSpace) ∧
      (balancedLoop t n i remaining offset cid ds).1.map ChunkPlan.chunkID =
        List.range' cid (balancedLoop t n i remaining offset cid ds).1.length
  | [], i, remaining, offset, cid => by
      simp [balancedLoop, contiguousFrom]
  | d :: ds, i, remaining, offset, cid => by
      by_cases hr : remaining ≤ 0
      · simp [balancedLoop, hr, contiguousFrom]
      · set c1 := if i = n - 1 then remaining else t with hc1
        set c2 := if d.freeSpace < c1 then d.freeSpace else c1 with hc2
        set cs := if remaining < c2 then remaining else c2 with hcs
        have hc2free : c2 ≤ d.freeSpace := by
          rw [hc2]
          split <;> omega
        have hcsle : cs ≤ c2 := by
          rw [hcs]
          split <;> omega
        have hcsrem : cs ≤ remaining := by
          rw [hcs]
          split <;> omega
        by_cases hpos : 0 < cs
        · have ih := balancedLoop_spec t n ds (i + 1) (remaining - cs) (offset + cs) (cid + 1)
          obtain ⟨ih0, ih1, ih2, ih3, ih4⟩ := ih
          simp only [balancedLoop, if_neg hr, ← hc1, ← hc2, ← hcs, if_pos hpos]
          refine ⟨?_, ?_, ?_, ?_, ?_⟩
          · intro _
            apply ih0
            omega
          · simp only [List.map_cons, List.sum_cons, ih1]
            ring
          · simp only [contiguousFrom, ih2]
            simp
          · intro c hc
            rcases List.mem_cons.mp hc with hc | hc
            · subst hc
              refine ⟨?_, d, List.mem_cons_self _ _, rfl, ?_⟩
              · dsimp only
                exact hpos
              · dsimp only
                omega
            · obtain ⟨hp, d', hd', he⟩ := ih3 c hc
              exact ⟨hp, d', List.mem_cons_of_mem _ hd', he⟩
          · simp only [List.map_cons, ih4, List.length_cons, List.range'_succ]
        · have ih := balancedLoop_spec t n ds (i + 1) remaining offset cid
          obtain ⟨ih0, ih1, ih2, ih3, ih4⟩ := ih
          simp only [balancedLoop, if_neg hr, ← hc1, ← hc2, ← hcs, if_neg hpos]
          exact ⟨ih0, ih1, ih2,
            fun c hc => by
              obtain ⟨hp, d', hd', he⟩ := ih3 c hc
              exact ⟨hp, d', List.mem_cons_of_mem _ hd', he⟩, ih4⟩

/-- Basic specification of the proportional allocation loop: `allocated` only
grows, sizes account exactly for the growth, offsets are contiguous, chunks
are positive, fit their drive and reference drives of the list, ids are
consecutive. -/
theorem proportionalLoop_basic (sh : Int → Int → Int → Int) (fs T : Int) (n : Nat) :
    ∀ (ds : List DriveSpaceInfo) (i : Nat) (offset allocated : Int) (cid : Nat),
      allocated ≤ (proportionalLoop sh fs T n i offset allocated cid ds).2 ∧
      ((proportionalLoop sh fs T n i offset allocated cid ds).1.map ChunkPlan.size).sum =
        (proportionalLoop sh fs T n i offset allocated cid ds).2 - allocated ∧
      contiguousFrom offset (proportionalLoop sh fs T n i offset allocated cid ds).1 = true ∧
      (∀ c ∈ (proportionalLoop sh fs T n i offset allocated cid ds).1,
        0 < c.size ∧ ∃ d ∈ ds, d.accountID = c.driveAccountID ∧ c.size ≤ d.freeSpace) ∧
      (proportionalLoop sh fs T n i offset allocated cid ds).1.map ChunkPlan.chunkID =
        List.range' cid (proportionalLoop sh fs T n i offset allocated cid ds).1.length
  | [], i, offset, allocated, cid => by
      simp [proportionalLoop, contiguousFrom]
  | d :: ds, i, offset, allocated, cid => by
      set c1 := if i = n - 1 then fs - allocated else sh fs d.freeSpace T with hc1
      set cs := if d.freeSpace < c1 then d.freeSpace else c1 with hcs
      have hcsfree : cs ≤ d.freeSpace := by
        rw [hcs]
        split <;> omega
      by_cases hpos : 0 < cs
      · have ih := proportionalLoop_basic sh fs T n ds (i + 1) (offset + cs) (allocated + cs)
          (cid + 1)
        obtain ⟨ih0, ih1, ih2, ih3, ih4⟩ := ih
        simp only [proportionalLoop, ← hc1, ← hcs, if_pos hpos]
        refine ⟨by omega, ?_, ?_, ?_, ?_⟩
        · simp only [List.map_cons, List.sum_cons, ih1]
          ring
        · simp only [contiguousFrom, ih2]
          simp
        · intro c hc
          rcases List.mem_cons.mp hc with hc | hc
          · subst hc
            refine ⟨?_, d, List.mem_cons_self _ _, rfl, ?_⟩
            · dsimp only
              exact hpos
            · dsimp only
              omega
          · obtain ⟨hp, d', hd', he⟩ := ih3 c hc
            exact ⟨hp, d', List.mem_cons_of_mem _ hd', he⟩
        · simp only [List.map_cons, ih4, List.length_cons, List.range'_succ]
      · have ih := proportionalLoop_basic sh fs T n ds (i + 1) offset allocated cid
        obtain ⟨ih0, ih1, ih2, ih3, ih4⟩ := ih
        simp only [proportionalLoop, ← hc1, ← hcs, if_neg hpos]
        exact ⟨ih0, ih1, ih2,
          fun c hc => by
            obtain ⟨hp, d', hd', he⟩ := ih3 c hc
            exact ⟨hp, d', List.mem_cons_of_mem _ hd', he⟩, ih4⟩

/-- Upper bound for the proportional loop: the final `allocated` never exceeds
`fs`, provided the shares are non-negative and the shares of the remaining
non-last drives still fit.  Holds for an arbitrary share function. -/
theorem proportionalLoop_le (sh : Int → Int → Int → Int) (fs T : Int) (n : Nat) :
    ∀ (ds : List DriveSpaceInfo) (i : Nat) (offset allocated : Int) (cid : Nat),
      (∀ d ∈ ds, 0 ≤ sh fs d.freeSpace T) →
      i + ds.length = n →
      allocated + (ds.dropLast.map (fun d => sh fs d.freeSpace T)).sum ≤ fs →
      (proportionalLoop sh fs T n i offset allocated cid ds).2 ≤ fs
  | [], i, offset, allocated, cid, _, _, hsum => by
      simp only [proportionalLoop]
      simpa using hsum
  | [d], i, offset, allocated, cid, hsh, hn, hsum => by
      have hlast : i = n - 1 := by
        simp only [List.length_cons, List.length_nil] at hn
        omega
      have halloc : allocated ≤ fs := by simpa using hsum
      set c1 := if i = n - 1 then fs - allocated else sh fs d.freeSpace T with hc1
      set cs := if d.freeSpace < c1 then d.freeSpace else c1 with hcs
      have hc1v : c1 = fs - allocated := by rw [hc1, if_pos hlast]
      have hcsle : cs ≤ fs - allocated := by
        rw [hcs]
        split <;> omega
      by_cases hpos : 0 < cs
      · simp only [proportionalLoop, ← hc1, ← hcs, if_pos hpos]
        omega
      · simp only [proportionalLoop, ← hc1, ← hcs, if_neg hpos]
        omega
  | d :: d' :: ds, i, offset, allocated, cid, hsh, hn, hsum => by
      have hnotlast : ¬ i = n - 1 := by
        simp only [List.length_cons] at hn
        omega
      rw [List.dropLast_cons₂, List.map_cons, List.sum_cons] at hsum
      have hrest : 0 ≤ (((d' :: ds).dropLast).map (fun d => sh fs d.freeSpace T)).sum := by
        apply List.sum_nonneg
        intro x hx
        simp only [List.mem_map] at hx
        obtain ⟨d'', hd'', hx⟩ := hx
        rw [← hx]
        exact hsh d'' (List.mem_cons_of_mem _ (List.dropLast_subset _ hd''))
      have hprop : 0 ≤ sh fs d.freeSpace T := hsh d (List.mem_cons_self _ _)
      have hn' : i + 1 + (d' :: ds).length = n := by
        simp only [List.length_cons] at hn ⊢
        omega
      have hsh' : ∀ x ∈ d' :: ds, 0 ≤ sh fs x.freeSpace T :=
        fun x hx => hsh x (List.mem_cons_of_mem _ hx)
      set c1 := if i = n - 1 then fs - allocated else sh fs d.freeSpace T with hc1
      set cs := if d.freeSpace < c1 then d.freeSpace else c1 with hcs
      have hc1v : c1 = sh fs d.freeSpace T := by rw [hc1, if_neg hnotlast]
      have hcsle : cs ≤ sh fs d.freeSpace T := by
        rw [hcs]
        split <;> omega
      by_cases hpos : 0 < cs
      · simp only [proportionalLoop, ← hc1, ← hcs, if_pos hpos]
        exact proportionalLoop_le sh fs T n (d' :: ds) (i + 1) (offset + cs)
          (allocated + cs) (cid + 1) hsh' hn' (by omega)
      · simp only [proportionalLoop, ← hc1, ← hcs, if_neg hpos]
        exact proportionalLoop_le sh fs T n (d' :: ds) (i + 1) offset allocated cid
          hsh' hn' (by omega)

/-- Sum of the proportional shares is at most the share of the summed free
space. -/
theorem propShares_sum_le_share (fs T : Int) (hfs : 0 ≤ fs) (hT : 0 < T) :
    ∀ (l : List DriveSpaceInfo), (∀ d ∈ l, 0 ≤ d.freeSpace) →
      (l.map (fun d => Int.tdiv (fs * d.freeSpace) T)).sum ≤
        Int.tdiv (fs * (l.map (fun d => d.freeSpace)).sum) T
  | [], _ => by
      simp [Int.zero_tdiv]
  | d :: l, hfree => by
      have hd := hfree d (List.mem_cons_self _ _)
      have hfreesum : 0 ≤ (l.map (fun d => d.freeSpace)).sum := by
        apply List.sum_nonneg
        intro x hx
        simp only [List.mem_map] at hx
        obtain ⟨d', hd', hx⟩ := hx
        rw [← hx]
        exact hfree d' (List.mem_cons_of_mem _ hd')
      have ih := propShares_sum_le_share fs T hfs hT l
        (fun x hx => hfree x (List.mem_cons_of_mem _ hx))
      simp only [List.map_cons, List.sum_cons]
      calc Int.tdiv (fs * d.freeSpace) T + (l.map (fun d => Int.tdiv (fs * d.freeSpace) T)).sum
          ≤ Int.tdiv (fs * d.freeSpace) T +
            Int.tdiv (fs * (l.map (fun d => d.freeSpace)).sum) T := by omega
        _ ≤ Int.tdiv (fs * d.freeSpace + fs * (l.map (fun d => d.freeSpace)).sum) T :=
            int_tdiv_add_tdiv_le _ _ _ (mul_nonneg hfs hd) (mul_nonneg hfs hfreesum) hT
        _ = Int.tdiv (fs * (d.freeSpace + (l.map (fun d => d.freeSpace)).sum)) T := by
            ring_nf

/-- The proportional shares of a list of drives whose free spaces are
non-negative and sum to at most `T` total at most `fs`. -/
theorem propShares_sum_le (fs T : Int) (hfs : 0 ≤ fs) (hT : 0 < T)
    (l : List DriveSpaceInfo) (hfree : ∀ d ∈ l, 0 ≤ d.freeSpace)
    (hsum : (l.map (fun d => d.freeSpace)).sum ≤ T) :
    (l.map (fun d => Int.tdiv (fs * d.freeSpace) T)).sum ≤ fs := by
  have hfreesum : 0 ≤ (l.map (fun d => d.freeSpace)).sum := by
    apply List.sum_nonneg
    intro x hx
    simp only [List.mem_map] at hx
    obtain ⟨d', hd', hx⟩ := hx
    rw [← hx]
    exact hfree d' hd'
  calc (l.map (fun d => Int.tdiv (fs * d.freeSpace) T)).sum
      ≤ Int.tdiv (fs * (l.map (fun d => d.freeSpace)).sum) T :=
        propShares_sum_le_share fs T hfs hT l hfree
    _ ≤ Int.tdiv (fs * T) T := int_tdiv_le_tdiv_of_le _ _ _ (mul_nonneg hfs hfreesum)
        (mul_le_mul_of_nonneg_left hsum hfs) hT
    _ = fs := Int.mul_tdiv_cancel fs (ne_of_gt hT)

/-- Full specification of the manual emission loop under the validation
performed by `calculateManualPlan` (entries non-negative and within their
drive's free space). -/
theorem manualLoop_spec :
    ∀ (sizes : List Int) (ds : List DriveSpaceInfo) (offset : Int) (i : Nat),
      (∀ p ∈ sizes.zip ds, 0 ≤ p.1 ∧ p.1 ≤ p.2.freeSpace) →
      sizes.length = ds.length →
      ((manualLoop offset i sizes ds).map ChunkPlan.size).sum = sizes.sum ∧
      contiguousFrom offset (manualLoop offset i sizes ds) = true ∧
      (∀ c ∈ manualLoop offset i sizes ds,
        0 < c.size ∧ ∃ d ∈ ds, d.accountID = c.driveAccountID ∧ c.size ≤ d.freeSpace) ∧
      (manualLoop offset i sizes ds).map ChunkPlan.chunkID = positiveIdx i sizes
  | [], ds, offset, i, _, _ => by
      simp [manualLoop, contiguousFrom, positiveIdx]
  | _ :: _, [], offset, i, _, hlen => by
      simp at hlen
  | s :: sizes, d :: ds, offset, i, hp, hlen => by
      have hs := hp (s, d) (by rw [List.zip_cons_cons]; exact List.mem_cons_self _ _)
      have hp' : ∀ p ∈ sizes.zip ds, 0 ≤ p.1 ∧ p.1 ≤ p.2.freeSpace := by
        intro p hpp
        exact hp p (by rw [List.zip_cons_cons]; exact List.mem_cons_of_mem _ hpp)
      have hlen' : sizes.length = ds.length := by
        simp at hlen
        omega
      by_cases hpos : 0 < s
      · obtain ⟨m1, m2, m3, m4⟩ := manualLoop_spec sizes ds (offset + s) (i + 1) hp' hlen'
        simp only [manualLoop, if_pos hpos]
        refine ⟨?_, ?_, ?_, ?_⟩
        · simp only [List.map_cons, List.sum_cons, m1]
        · simp only [contiguousFrom, m2]
          simp
        · intro c hc
          rcases List.mem_cons.mp hc with hc | hc
          · subst hc
            exact ⟨hpos, d, List.mem_cons_self _ _, rfl, hs.2⟩
          · obtain ⟨hpc, d', hd', he⟩ := m3 c hc
            exact ⟨hpc, d', List.mem_cons_of_mem _ hd', he⟩
        · simp only [List.map_cons, m4, positiveIdx, if_pos hpos]
      · obtain ⟨m1, m2, m3, m4⟩ := manualLoop_spec sizes ds offset (i + 1) hp' hlen'
        have hz : s = 0 := by omega
        simp only [manualLoop, if_neg hpos]
        refine ⟨?_, m2, ?_, ?_⟩
        · rw [m1, List.sum_cons, hz, zero_add]
        · intro c hc
          obtain ⟨hpc, d', hd', he⟩ := m3 c hc
          exact ⟨hpc, d', List.mem_cons_of_mem _ hd', he⟩
        · simp only [m4, positiveIdx, if_neg hpos]

/-- Invariants of `calculateGreedyPlan` for non-negative sizes over drives of
positive free space. -/
theorem calculateGreedyPlan_invariants (fileSize : Int) (drives : List DriveSpaceInfo)
    (plan : List ChunkPlan) (hfs : 0 ≤ fileSize)
    (hfree : ∀ d ∈ drives, 0 < d.freeSpace)
    (h : calculateGreedyPlan fileSize drives = Except.ok plan) :
    ((plan.map ChunkPlan.size).sum = fileSize) ∧
    contiguousFrom 0 plan = true ∧
    (∀ c ∈ plan, 0 < c.size ∧ ∃ d ∈ drives, d.accountID = c.driveAccountID ∧
      c.size ≤ d.freeSpace) ∧
    plan.map ChunkPlan.chunkID = List.range' 1 plan.length := by
  have hfree' : ∀ d ∈ sortDrivesDesc drives, 0 < d.freeSpace := by
    intro d hd
    exact hfree d ((List.perm_insertionSort _ drives).mem_iff.mp hd)
  obtain ⟨g0, g1, g2, g3, g4⟩ := greedyLoop_spec (sortDrivesDesc drives) fileSize 0 1 hfree'
  simp only [calculateGreedyPlan] at h
  by_cases hrem : 0 < (greedyLoop fileSize 0 1 (sortDrivesDesc drives)).2
  · rw [if_pos hrem] at h
    exact absurd h (by simp)
  · rw [if_neg hrem] at h
    simp only [Except.ok.injEq] at h
    subst h
    have hz : (greedyLoop fileSize 0 1 (sortDrivesDesc drives)).2 = 0 := by
      have := g0 hfs
      omega
    refine ⟨by rw [g1, hz, sub_zero], g2, ?_, g4⟩
    intro c hc
    obtain ⟨hpc, d, hd, he⟩ := g3 c hc
    exact ⟨hpc, d, (List.perm_insertionSort _ drives).mem_iff.mp hd, he⟩

/-- Invariants of `calculateBalancedPlan` for non-negative sizes over drives
of positive free space (both the direct pass, where the loop places all
bytes, and the greedy fallback). -/
theorem calculateBalancedPlan_invariants (fileSize : Int) (drives : List DriveSpaceInfo)
    (plan : List ChunkPlan) (hfs : 0 ≤ fileSize)
    (hfree : ∀ d ∈ drives, 0 < d.freeSpace)
    (h : calculateBalancedPlan fileSize drives = Except.ok plan) :
    ((plan.map ChunkPlan.size).sum = fileSize) ∧
    contiguousFrom 0 plan = true ∧
    (∀ c ∈ plan, 0 < c.size ∧ ∃ d ∈ drives, d.accountID = c.driveAccountID ∧
      c.size ≤ d.freeSpace) ∧
    plan.map ChunkPlan.chunkID = List.range' 1 plan.length := by
  simp only [calculateBalancedPlan] at h
  by_cases hrem : 0 < (balancedLoop (Int.tdiv fileSize (drives.length : Int)) drives.length
      0 fileSize 0 1 drives).2
  · rw [if_pos hrem] at h
    exact calculateGreedyPlan_invariants fileSize drives plan hfs hfree h
  · rw [if_neg hrem] at h
    simp only [Except.ok.injEq] at h
    subst h
    obtain ⟨b0, b1, b2, b3, b4⟩ := balancedLoop_spec
      (Int.tdiv fileSize (drives.length : Int)) drives.length drives 0 fileSize 0 1
    have hz : (balancedLoop (Int.tdiv fileSize (drives.length : Int)) drives.length
        0 fileSize 0 1 drives).2 = 0 := by
      have := b0 hfs
      omega
    exact ⟨by rw [b1, hz, sub_zero], b2, b3, b4⟩

/-- Invariants of `calculateProportionalPlan`, for an arbitrary share function
`sh` (hence in particular for the float64 one): a returned plan is contiguous,
its chunks are positive and fit drives of the list, its ids are consecutive,
its sizes sum to at least `fileSize` — and to exactly `fileSize` whenever the
shares are non-negative and the shares of all but the last drive total at most
`fileSize`. -/
theorem calculateProportionalPlan_invariants (sh : Int → Int → Int → Int)
    (fileSize : Int) (drives : List DriveSpaceInfo) (plan : List ChunkPlan)
    (h : calculateProportionalPlan sh fileSize drives = Except.ok plan) :
    fileSize ≤ (plan.map ChunkPlan.size).sum ∧
    contiguousFrom 0 plan = true ∧
    (∀ c ∈ plan, 0 < c.size ∧ ∃ d ∈ drives, d.accountID = c.driveAccountID ∧
      c.size ≤ d.freeSpace) ∧
    plan.map ChunkPlan.chunkID = List.range' 1 plan.length ∧
    ((∀ d ∈ drives, 0 ≤ sh fileSize d.freeSpace ((drives.map (fun d => d.freeSpace)).sum)) →
      (drives.dropLast.map
        (fun d => sh fileSize d.freeSpace ((drives.map (fun d => d.freeSpace)).sum))).sum ≤
        fileSize →
      (plan.map ChunkPlan.size).sum = fileSize) := by
  obtain ⟨p0, p1, p2, p3, p4⟩ := proportionalLoop_basic sh fileSize
    (drives.map (fun d => d.freeSpace)).sum drives.length drives 0 0 0 1
  simp only [calculateProportionalPlan] at h
  by_cases hrem : (proportionalLoop sh fileSize (drives.map (fun d => d.freeSpace)).sum
      drives.length 0 0 0 1 drives).2 < fileSize
  · rw [if_pos hrem] at h
    exact absurd h (by simp)
  · rw [if_neg hrem] at h
    simp only [Except.ok.injEq] at h
    subst h
    push_neg at hrem
    refine ⟨by omega, p2, p3, p4, ?_⟩
    intro hshpos hshsum
    have hle := proportionalLoop_le sh fileSize (drives.map (fun d => d.freeSpace)).sum
      drives.length drives 0 0 0 1 hshpos (by simp) (by omega)
    omega

/-- The exact rational share `ratShare` satisfies the equality conditions of
`calculateProportionalPlan_invariants`: it is non-negative, and the shares of
all but the last drive total at most `fileSize` (exact-floor subadditivity —
a property the float64 shares computed by Go need not have at `int64`-scale
magnitudes). -/
theorem ratShare_conditions (fileSize : Int) (drives : List DriveSpaceInfo)
    (hfs : 0 ≤ fileSize) (hfree : ∀ d ∈ drives, 0 < d.freeSpace) (hne : drives ≠ []) :
    (∀ d ∈ drives,
      0 ≤ ratShare fileSize d.freeSpace ((drives.map (fun d => d.freeSpace)).sum)) ∧
    (drives.dropLast.map
      (fun d => ratShare fileSize d.freeSpace ((drives.map (fun d => d.freeSpace)).sum))).sum ≤
      fileSize := by
  have hsumfree : ∀ (l : List DriveSpaceInfo), (∀ d ∈ l, 0 < d.freeSpace) →
      0 ≤ (l.map (fun d => d.freeSpace)).sum := by
    intro l hl
    apply List.sum_nonneg
    intro x hx
    simp only [List.mem_map] at hx
    obtain ⟨d', hd', hx⟩ := hx
    rw [← hx]
    exact le_of_lt (hl d' hd')
  have hT : 0 < (drives.map (fun d => d.freeSpace)).sum := by
    obtain ⟨d0, rest, rfl⟩ : ∃ d0 rest, drives = d0 :: rest := by
      cases drives with
      | nil => exact absurd rfl hne
      | cons a l => exact ⟨a, l, rfl⟩
    rw [List.map_cons, List.sum_cons]
    have h1 := hfree d0 (List.mem_cons_self _ _)
    have h2 := hsumfree rest (fun x hx => hfree x (List.mem_cons_of_mem _ hx))
    omega
  have hdropfree : ∀ d ∈ drives.dropLast, 0 ≤ d.freeSpace :=
    fun d hd => le_of_lt (hfree d (List.dropLast_subset _ hd))
  have hdropsum : ((drives.dropLast).map (fun d => d.freeSpace)).sum ≤
      (drives.map (fun d => d.freeSpace)).sum := by
    conv_rhs => rw [← List.dropLast_append_getLast hne]
    rw [List.map_append, List.sum_append]
    have := le_of_lt (hfree (drives.getLast hne) (List.getLast_mem hne))
    simp
    omega
  constructor
  · intro d hd
    simp only [ratShare]
    exact Int.tdiv_nonneg (mul_nonneg hfs (le_of_lt (hfree d hd))) (le_of_lt hT)
  · simp only [ratShare]
    exact propShares_sum_le fileSize _ hfs hT _ hdropfree hdropsum

/-- Outcome characterization of `calculateManualPlan`: when it returns a plan,
the validation has passed and the plan is the `manualLoop` emission. -/
theorem calculateManualPlan_invariants (fileSize : Int) (drives : List DriveSpaceInfo)
    (manualSizes : List Int) (plan : List ChunkPlan)
    (h : calculateManualPlan fileSize drives manualSizes = Except.ok plan) :
    ((plan.map ChunkPlan.size).sum = fileSize) ∧
    contiguousFrom 0 plan = true ∧
    (∀ c ∈ plan, 0 < c.size ∧ ∃ d ∈ drives, d.accountID = c.driveAccountID ∧
      c.size ≤ d.freeSpace) ∧
    plan.map ChunkPlan.chunkID = positiveIdx 0 manualSizes := by
  simp only [calculateManualPlan] at h
  by_cases h1 : manualSizes.length ≠ drives.length
  · rw [if_pos h1] at h
    exact absurd h (by simp)
  rw [if_neg h1] at h
  push_neg at h1
  by_cases h2 : (manualSizes.zip drives).any
      (fun p => decide (p.1 < 0) || decide (p.2.freeSpace < p.1)) = true
  · rw [if_pos h2] at h
    exact absurd h (by simp)
  rw [if_neg h2] at h
  by_cases h3 : manualSizes.sum ≠ fileSize
  · rw [if_pos h3] at h
    exact absurd h (by simp)
  rw [if_neg h3] at h
  push_neg at h3
  simp only [Except.ok.injEq] at h
  subst h
  have hp : ∀ p ∈ manualSizes.zip drives, 0 ≤ p.1 ∧ p.1 ≤ p.2.freeSpace := by
    intro p hpp
    have hq : ¬(decide (p.1 < 0) || decide (p.2.freeSpace < p.1)) = true := by
      intro hcontra
      exact h2 (List.any_eq_true.mpr ⟨p, hpp, hcontra⟩)
    simp only [Bool.or_eq_true, decide_eq_true_eq] at hq
    push_neg at hq
    omega
  obtain ⟨m1, m2, m3, m4⟩ := manualLoop_spec manualSizes drives 0 0 hp h1
  exact ⟨by rw [m1, h3], m2, m3, m4⟩

/-- Claim C3 counterexample: for a negative `file_size` (reachable through the
chunking-calculate endpoint, which does not validate the sign)
`CalculateChunkPlan` under the greedy strategy returns the empty plan, whose
sizes sum to `0 ≠ file_size`. -/
theorem chunkPlan_negative_counterexample :
    CalculateChunkPlan ratShare (-1) [⟨1, 10, true⟩] "greedy" [] = Except.ok [] ∧
      (([] : List ChunkPlan).map ChunkPlan.size).sum ≠ (-1 : Int) := by
  constructor
  · rfl
  · decide

/-- Claim C3 (amended): for every non-negative `file_size`, drive list and
strategy for which `CalculateChunkPlan` returns a plan: each chunk's size is
at most the free space of a drive of the input list carrying its account id,
the entries form a contiguous ascending partition starting at offset 0 with
`end_offset = start_offset + size`, and the chunk sizes sum to at least
`file_size` — exactly `file_size` for the greedy, balanced and manual
strategies, and for the proportional strategy (whose per-drive share Go
computes in float64, abstracted as the arbitrary share function `propShare`)
whenever the shares are non-negative and the shares of all but the last
available drive total at most `file_size`, as the exact rational shares do
(see `ratShare_conditions`); float64 rounding can exceed that bound at
`int64`-scale magnitudes, in which case the planner returns a plan whose
sizes sum above `file_size`. -/
theorem CalculateChunkPlan_invariants (propShare : Int → Int → Int → Int)
    (fileSize : Int) (driveSpaces : List DriveSpaceInfo)
    (strategy : String) (manualSizes : List Int) (plan : List ChunkPlan)
    (hfs : 0 ≤ fileSize)
    (h : CalculateChunkPlan propShare fileSize driveSpaces strategy manualSizes =
      Except.ok plan) :
    contiguousFrom 0 plan = true ∧
    (∀ c ∈ plan, ∃ d ∈ driveSpaces, d.accountID = c.driveAccountID ∧ c.size ≤ d.freeSpace) ∧
    fileSize ≤ (plan.map ChunkPlan.size).sum ∧
    (strategy ≠ "proportional" → (plan.map ChunkPlan.size).sum = fileSize) ∧
    ((∀ d ∈ availableDrivesOf driveSpaces,
        0 ≤ propShare fileSize d.freeSpace (totalAvailableOf driveSpaces)) →
      ((availableDrivesOf driveSpaces).dropLast.map
        (fun d => propShare fileSize d.freeSpace (totalAvailableOf driveSpaces))).sum ≤
        fileSize →
      (plan.map ChunkPlan.size).sum = fileSize) := by
  simp only [CalculateChunkPlan] at h
  have hfree : ∀ d ∈ availableDrivesOf driveSpaces, 0 < d.freeSpace := by
    intro d hd
    simp only [availableDrivesOf, List.mem_filter, Bool.and_eq_true, decide_eq_true_eq] at hd
    exact hd.2.2
  have hsub : ∀ d ∈ availableDrivesOf driveSpaces, d ∈ driveSpaces := by
    intro d hd
    simp only [availableDrivesOf, List.mem_filter] at hd
    exact hd.1
  by_cases he : (availableDrivesOf driveSpaces).isEmpty
  · rw [if_pos he] at h
    exact absurd h (by simp)
  rw [if_neg he] at h
  by_cases hcap : totalAvailableOf driveSpaces < fileSize
  · rw [if_pos hcap] at h
    exact absurd h (by simp)
  rw [if_neg hcap] at h
  by_cases hg : strategy = "greedy"
  · rw [if_pos hg] at h
    obtain ⟨g1, g2, g3, _⟩ := calculateGreedyPlan_invariants fileSize _ plan hfs hfree h
    refine ⟨g2, ?_, by omega, fun _ => g1, fun _ _ => g1⟩
    intro c hc
    obtain ⟨_, d, hd, ha, hbd⟩ := g3 c hc
    exact ⟨d, hsub d hd, ha, hbd⟩
  rw [if_neg hg] at h
  by_cases hba : strategy = "balanced"
  · rw [if_pos hba] at h
    obtain ⟨b1, b2, b3, _⟩ := calculateBalancedPlan_invariants fileSize _ plan hfs hfree h
    refine ⟨b2, ?_, by omega, fun _ => b1, fun _ _ => b1⟩
    intro c hc
    obtain ⟨_, d, hd, ha, hbd⟩ := b3 c hc
    exact ⟨d, hsub d hd, ha, hbd⟩
  rw [if_neg hba] at h
  by_cases hpr : strategy = "proportional"
  · rw [if_pos hpr] at h
    obtain ⟨p1, p2, p3, _, p5⟩ := calculateProportionalPlan_invariants propShare fileSize _
      plan h
    refine ⟨p2, ?_, p1, fun hne => absurd hpr hne, ?_⟩
    · intro c hc
      obtain ⟨_, d, hd, ha, hbd⟩ := p3 c hc
      exact ⟨d, hsub d hd, ha, hbd⟩
    · intro hc1 hc2
      exact p5 (by simpa [totalAvailableOf] using hc1) (by simpa [totalAvailableOf] using hc2)
  rw [if_neg hpr] at h
  by_cases hm : strategy = "manual"
  · rw [if_pos hm] at h
    obtain ⟨m1, m2, m3, _⟩ := calculateManualPlan_invariants fileSize _ manualSizes plan h
    refine ⟨m2, ?_, by omega, fun _ => m1, fun _ _ => m1⟩
    intro c hc
    obtain ⟨_, d, hd, ha, hbd⟩ := m3 c hc
    exact ⟨d, hsub d hd, ha, hbd⟩
  · rw [if_neg hm] at h
    exact absurd h (by simp)

/-- Claim C3 amended-theorem witness: a concrete balanced plan over two
drives, with the share function instantiated to the exact rational share. -/
theorem CalculateChunkPlan_invariants_witness :
    contiguousFrom 0 [⟨1, 1, 500, 0, 500⟩, ⟨2, 2, 500, 500, 1000⟩] = true ∧
    (∀ c ∈ ([⟨1, 1, 500, 0, 500⟩, ⟨2, 2, 500, 500, 1000⟩] : List ChunkPlan),
      ∃ d ∈ ([⟨1, 2000, true⟩, ⟨2, 2000, true⟩] : List DriveSpaceInfo),
        d.accountID = c.driveAccountID ∧ c.size ≤ d.freeSpace) ∧
    (1000 : Int) ≤ (([⟨1, 1, 500, 0, 500⟩, ⟨2, 2, 500, 500, 1000⟩] : List ChunkPlan).map
      ChunkPlan.size).sum ∧
    ("balanced" ≠ "proportional" →
      (([⟨1, 1, 500, 0, 500⟩, ⟨2, 2, 500, 500, 1000⟩] : List ChunkPlan).map
        ChunkPlan.size).sum = 1000) ∧
    ((∀ d ∈ availableDrivesOf [⟨1, 2000, true⟩, ⟨2, 2000, true⟩],
        0 ≤ ratShare 1000 d.freeSpace (totalAvailableOf [⟨1, 2000, true⟩, ⟨2, 2000, true⟩])) →
      ((availableDrivesOf [⟨1, 2000, true⟩, ⟨2, 2000, true⟩]).dropLast.map
        (fun d => ratShare 1000 d.freeSpace
          (totalAvailableOf [⟨1, 2000, true⟩, ⟨2, 2000, true⟩]))).sum ≤ 1000 →
      (([⟨1, 1, 500, 0, 500⟩, ⟨2, 2, 500, 500, 1000⟩] : List ChunkPlan).map
        ChunkPlan.size).sum = 1000) :=
  CalculateChunkPlan_invariants ratShare 1000 [⟨1, 2000, true⟩, ⟨2, 2000, true⟩]
    "balanced" [] [⟨1, 1, 500, 0, 500⟩, ⟨2, 2, 500, 500, 1000⟩] (by decide) (by rfl)

/-- The chunks emitted by the balanced pass reference the drives in input
order (some drives skipped): the emitted account ids form a sublist of the
input account ids. -/
theorem balancedLoop_sublist (t : Int) (n : Nat) :
    ∀ (ds : List DriveSpaceInfo) (i : Nat) (remaining offset : Int) (cid : Nat),
      ((balancedLoop t n i remaining offset cid ds).1.map ChunkPlan.driveAccountID).Sublist
        (ds.map DriveSpaceInfo.accountID)
  | [], _, _, _, _ => by
      simp [balancedLoop]
  | d :: ds, i, remaining, offset, cid => by
      by_cases hr : remaining ≤ 0
      · simp [balancedLoop, hr]
      · set c1 := if i = n - 1 then remaining else t with hc1
        set c2 := if d.freeSpace < c1 then d.freeSpace else c1 with hc2
        set cs := if remaining < c2 then remaining else c2 with hcs
        by_cases hpos : 0 < cs
        · simp only [balancedLoop, if_neg hr, ← hc1, ← hc2, ← hcs, if_pos hpos, List.map_cons]
          exact List.Sublist.cons₂ _
            (balancedLoop_sublist t n ds (i + 1) (remaining - cs) (offset + cs) (cid + 1))
        · simp only [balancedLoop, if_neg hr, ← hc1, ← hc2, ← hcs, if_neg hpos, List.map_cons]
          exact List.Sublist.cons _ (balancedLoop_sublist t n ds (i + 1) remaining offset cid)

/-- Claim C7 counterexample: drives with free space `[5, 100]` and
`file_size = 12`.  The target is `⌊12/2⌋ = 6`, which exceeds drive 1's free
space 5 — by the claim the planner should fall back to greedy (whose plan
here is a single chunk of 12 on drive 2) — yet `calculateBalancedPlan` clamps
the assignment to 5 and returns `[5, 7]` without falling back, so the first
drive also does not receive the target size. -/
theorem balanced_clamp_counterexample :
    calculateBalancedPlan 12 [⟨1, 5, true⟩, ⟨2, 100, true⟩] =
      Except.ok [⟨1, 1, 5, 0, 5⟩, ⟨2, 2, 7, 5, 12⟩] ∧
    Int.tdiv 12 2 = 6 ∧
    calculateGreedyPlan 12 [⟨1, 5, true⟩, ⟨2, 100, true⟩] =
      Except.ok [⟨1, 2, 12, 0, 12⟩] := by
  refine ⟨rfl, rfl, rfl⟩

/-- Claim C7 (amended): under the balanced strategy each drive is assigned the
target `⌊file_size / D⌋` (or, on the last drive, the whole remainder) clamped
to its free space and to the bytes still unplaced, zero-size assignments
omitted; the planner falls back to greedy on the same drive list exactly when
this clamped pass leaves bytes unplaced (greedy reorders by descending free
space); when no fallback occurs the output preserves the input drive order. -/
theorem calculateBalancedPlan_fallback_order (fileSize : Int) (drives : List DriveSpaceInfo) :
    (0 < (balancedLoop (Int.tdiv fileSize (drives.length : Int)) drives.length
          0 fileSize 0 1 drives).2 →
      calculateBalancedPlan fileSize drives = calculateGreedyPlan fileSize drives) ∧
    ((balancedLoop (Int.tdiv fileSize (drives.length : Int)) drives.length
          0 fileSize 0 1 drives).2 ≤ 0 →
      calculateBalancedPlan fileSize drives =
        Except.ok (balancedLoop (Int.tdiv fileSize (drives.length : Int)) drives.length
          0 fileSize 0 1 drives).1 ∧
      ((balancedLoop (Int.tdiv fileSize (drives.length : Int)) drives.length
          0 fileSize 0 1 drives).1.map ChunkPlan.driveAccountID).Sublist
        (drives.map DriveSpaceInfo.accountID)) := by
  constructor
  · intro hpos
    simp only [calculateBalancedPlan, if_pos hpos]
  · intro hle
    exact ⟨by simp only [calculateBalancedPlan, if_neg (not_lt.mpr hle)],
      balancedLoop_sublist _ _ drives 0 fileSize 0 1⟩

/-- Claim C7 amended-theorem witness: with free spaces `[5, 3]` and
`file_size = 12` the clamped pass leaves 4 bytes unplaced, so the planner
falls back to greedy. -/
theorem calculateBalancedPlan_fallback_order_witness :
    calculateBalancedPlan 12 [⟨1, 5, true⟩, ⟨2, 3, true⟩] =
      calculateGreedyPlan 12 [⟨1, 5, true⟩, ⟨2, 3, true⟩] :=
  (calculateBalancedPlan_fallback_order 12 [⟨1, 5, true⟩, ⟨2, 3, true⟩]).1 (by decide)

/-- Chunk-id and positivity part of `calculateGreedyPlan` (holds for every
`file_size`, including negative ones). -/
theorem calculateGreedyPlan_ids (fileSize : Int) (drives : List DriveSpaceInfo)
    (plan : List ChunkPlan) (hfree : ∀ d ∈ drives, 0 < d.freeSpace)
    (h : calculateGreedyPlan fileSize drives = Except.ok plan) :
    (∀ c ∈ plan, 0 < c.size) ∧ plan.map ChunkPlan.chunkID = List.range' 1 plan.length := by
  have hfree' : ∀ d ∈ sortDrivesDesc drives, 0 < d.freeSpace := by
    intro d hd
    exact hfree d ((List.perm_insertionSort _ drives).mem_iff.mp hd)
  obtain ⟨_, _, _, g3, g4⟩ := greedyLoop_spec (sortDrivesDesc drives) fileSize 0 1 hfree'
  simp only [calculateGreedyPlan] at h
  by_cases hrem : 0 < (greedyLoop fileSize 0 1 (sortDrivesDesc drives)).2
  · rw [if_pos hrem] at h
    exact absurd h (by simp)
  · rw [if_neg hrem] at h
    simp only [Except.ok.injEq] at h
    subst h
    exact ⟨fun c hc => (g3 c hc).1, g4⟩

/-- Chunk-id and positivity part of `calculateBalancedPlan`. -/
theorem calculateBalancedPlan_ids (fileSize : Int) (drives : List DriveSpaceInfo)
    (plan : List ChunkPlan) (hfree : ∀ d ∈ drives, 0 < d.freeSpace)
    (h : calculateBalancedPlan fileSize drives = Except.ok plan) :
    (∀ c ∈ plan, 0 < c.size) ∧ plan.map ChunkPlan.chunkID = List.range' 1 plan.length := by
  simp only [calculateBalancedPlan] at h
  by_cases hrem : 0 < (balancedLoop (Int.tdiv fileSize (drives.length : Int)) drives.length
      0 fileSize 0 1 drives).2
  · rw [if_pos hrem] at h
    exact calculateGreedyPlan_ids fileSize drives plan hfree h
  · rw [if_neg hrem] at h
    simp only [Except.ok.injEq] at h
    subst h
    obtain ⟨_, _, _, b3, b4⟩ := balancedLoop_spec
      (Int.tdiv fileSize (drives.length : Int)) drives.length drives 0 fileSize 0 1
    exact ⟨fun c hc => (b3 c hc).1, b4⟩

/-- Chunk-id and positivity part of `calculateProportionalPlan` (independent
of the share function's values). -/
theorem calculateProportionalPlan_ids (sh : Int → Int → Int → Int) (fileSize : Int)
    (drives : List DriveSpaceInfo) (plan : List ChunkPlan)
    (h : calculateProportionalPlan sh fileSize drives = Except.ok plan) :
    (∀ c ∈ plan, 0 < c.size) ∧ plan.map ChunkPlan.chunkID = List.range' 1 plan.length := by
  simp only [calculateProportionalPlan] at h
  by_cases hrem : (proportionalLoop sh fileSize (drives.map (fun d => d.freeSpace)).sum
      drives.length 0 0 0 1 drives).2 < fileSize
  · rw [if_pos hrem] at h
    exact absurd h (by simp)
  · rw [if_neg hrem] at h
    simp only [Except.ok.injEq] at h
    subst h
    obtain ⟨_, _, _, p3, p4⟩ := proportionalLoop_basic sh fileSize
      (drives.map (fun d => d.freeSpace)).sum drives.length drives 0 0 0 1
    exact ⟨fun c hc => (p3 c hc).1, p4⟩

/-- Claim C8 counterexample: `file_size = 10` on three drives with manual
sizes `[5, 0, 5]`.  The planner returns chunk ids `[1, 3]` — the zero entry is
omitted but its id is not renumbered, so the ids are not `1..k`. -/
theorem manual_ids_gap_counterexample :
    CalculateChunkPlan ratShare 10 [⟨1, 10, true⟩, ⟨2, 10, true⟩, ⟨3, 10, true⟩]
      "manual" [5, 0, 5] =
      Except.ok [⟨1, 1, 5, 0, 5⟩, ⟨3, 3, 5, 5, 10⟩] ∧
    ([⟨1, 1, 5, 0, 5⟩, ⟨3, 3, 5, 5, 10⟩] : List ChunkPlan).map ChunkPlan.chunkID ≠
      List.range' 1 ([⟨1, 1, 5, 0, 5⟩, ⟨3, 3, 5, 5, 10⟩] : List ChunkPlan).length := by
  constructor
  · rfl
  · decide

/-- Claim C8 (amended): every plan the planner returns contains no size-0
entry; for the greedy, balanced and proportional strategies the chunk ids are
exactly `1..k` in emission order with no gaps; for the manual strategy each
entry's chunk id is the 1-based position of its (positive) size in the manual
vector, so zero entries leave gaps in the id sequence. -/
theorem CalculateChunkPlan_ids (propShare : Int → Int → Int → Int) (fileSize : Int)
    (driveSpaces : List DriveSpaceInfo)
    (strategy : String) (manualSizes : List Int) (plan : List ChunkPlan)
    (h : CalculateChunkPlan propShare fileSize driveSpaces strategy manualSizes =
      Except.ok plan) :
    (∀ c ∈ plan, c.size ≠ 0) ∧
    (strategy ≠ "manual" → plan.map ChunkPlan.chunkID = List.range' 1 plan.length) ∧
    (strategy = "manual" → plan.map ChunkPlan.chunkID = positiveIdx 0 manualSizes) := by
  simp only [CalculateChunkPlan] at h
  have hfree : ∀ d ∈ availableDrivesOf driveSpaces, 0 < d.freeSpace := by
    intro d hd
    simp only [availableDrivesOf, List.mem_filter, Bool.and_eq_true, decide_eq_true_eq] at hd
    exact hd.2.2
  by_cases he : (availableDrivesOf driveSpaces).isEmpty
  · rw [if_pos he] at h
    exact absurd h (by simp)
  rw [if_neg he] at h
  by_cases hcap : totalAvailableOf driveSpaces < fileSize
  · rw [if_pos hcap] at h
    exact absurd h (by simp)
  rw [if_neg hcap] at h
  by_cases hg : strategy = "greedy"
  · rw [if_pos hg] at h
    obtain ⟨s1, s2⟩ := calculateGreedyPlan_ids fileSize _ plan hfree h
    exact ⟨fun c hc => ne_of_gt (s1 c hc), fun _ => s2, fun hm => absurd hm (by rw [hg]; decide)⟩
  rw [if_neg hg] at h
  by_cases hb : strategy = "balanced"
  · rw [if_pos hb] at h
    obtain ⟨s1, s2⟩ := calculateBalancedPlan_ids fileSize _ plan hfree h
    exact ⟨fun c hc => ne_of_gt (s1 c hc), fun _ => s2, fun hm => absurd hm (by rw [hb]; decide)⟩
  rw [if_neg hb] at h
  by_cases hpr : strategy = "proportional"
  · rw [if_pos hpr] at h
    obtain ⟨s1, s2⟩ := calculateProportionalPlan_ids propShare fileSize _ plan h
    exact ⟨fun c hc => ne_of_gt (s1 c hc), fun _ => s2, fun hm => absurd hm (by rw [hpr]; decide)⟩
  rw [if_neg hpr] at h
  by_cases hm : strategy = "manual"
  · rw [if_pos hm] at h
    obtain ⟨_, _, m3, m4⟩ := calculateManualPlan_invariants fileSize _ manualSizes plan h
    exact ⟨fun c hc => ne_of_gt (m3 c hc).1, fun hne => absurd hm hne, fun _ => m4⟩
  · rw [if_neg hm] at h
    exact absurd h (by simp)

/-- Claim C8 amended-theorem witness: the manual `[5, 0, 5]` instance — ids
are `positiveIdx 0 [5, 0, 5] = [1, 3]`, with a gap at 2. -/
theorem CalculateChunkPlan_ids_witness :
    (∀ c ∈ ([⟨1, 1, 5, 0, 5⟩, ⟨3, 3, 5, 5, 10⟩] : List ChunkPlan), c.size ≠ 0) ∧
    ("manual" ≠ "manual" →
      ([⟨1, 1, 5, 0, 5⟩, ⟨3, 3, 5, 5, 10⟩] : List ChunkPlan).map ChunkPlan.chunkID =
        List.range' 1 ([⟨1, 1, 5, 0, 5⟩, ⟨3, 3, 5, 5, 10⟩] : List ChunkPlan).length) ∧
    ("manual" = "manual" →
      ([⟨1, 1, 5, 0, 5⟩, ⟨3, 3, 5, 5, 10⟩] : List ChunkPlan).map ChunkPlan.chunkID =
        positiveIdx 0 [5, 0, 5]) :=
  CalculateChunkPlan_ids ratShare 10 [⟨1, 10, true⟩, ⟨2, 10, true⟩, ⟨3, 10, true⟩]
    "manual" [5, 0, 5] [⟨1, 1, 5, 0, 5⟩, ⟨3, 3, 5, 5, 10⟩] (by rfl)

/-! ## Theorems: upload handlers and pipeline -/

/-- Claim C4 counterexample: a session already in status `processing` (or
`complete`) with `uploaded_size = total_size` and unexpired — finalize returns
HTTP 200 and spawns a second pipeline instead of returning 400. -/
theorem finalize_no_status_check_counterexample :
    FinalizeUploadHandler (some ⟨7, 100, 100, "processing", 50⟩) 7 0 true =
      FinalizeOutcome.mk 200 true ∧
    FinalizeUploadHandler (some ⟨7, 100, 100, "complete", 50⟩) 7 0 true =
      FinalizeOutcome.mk 200 true := by
  constructor
  · rfl
  · rfl

/-- Claim C4 (amended): finalize never consults the session status.  It spawns
the pipeline (with HTTP 200) exactly when the session exists, belongs to the
user, is unexpired, has `uploaded_size = total_size` and the status write
succeeds — so a second finalize on a `processing` or `complete` session
meeting these conditions spawns another pipeline; lookup failures, expiry and
incomplete uploads yield 400 (a failed status write yields 500). -/
theorem FinalizeUploadHandler_spec (session : Option UploadSession) (userID : Nat)
    (now : Int) (statusUpdateOk : Bool) :
    ((FinalizeUploadHandler session userID now statusUpdateOk).pipelineSpawned = true ↔
      ∃ s, session = some s ∧ s.userID = userID ∧ now ≤ s.expiresAt ∧
        s.uploadedSize = s.totalSize ∧ statusUpdateOk = true) ∧
    ((FinalizeUploadHandler session userID now statusUpdateOk).statusCode = 200 ↔
      (FinalizeUploadHandler session userID now statusUpdateOk).pipelineSpawned = true) := by
  cases session with
  | none =>
      constructor
      · simp [FinalizeUploadHandler, GetSession]
      · simp [FinalizeUploadHandler, GetSession]
  | some s =>
      simp only [FinalizeUploadHandler, GetSession, Option.some.injEq]
      by_cases h1 : s.userID ≠ userID
      · rw [if_pos h1]
        dsimp only
        refine ⟨⟨fun hx => absurd hx (by decide), ?_⟩,
          fun hx => absurd hx (by decide), fun hx => absurd hx (by decide)⟩
        rintro ⟨s', rfl, hu, -⟩
        exact absurd hu h1
      · rw [if_neg h1]
        push_neg at h1
        by_cases h2 : s.expiresAt < now
        · rw [if_pos h2]
          dsimp only
          refine ⟨⟨fun hx => absurd hx (by decide), ?_⟩,
            fun hx => absurd hx (by decide), fun hx => absurd hx (by decide)⟩
          rintro ⟨s', rfl, -, hexp, -⟩
          omega
        · rw [if_neg h2]
          dsimp only
          by_cases h3 : s.uploadedSize ≠ s.totalSize
          · rw [if_pos h3]
            refine ⟨⟨fun hx => absurd hx (by decide), ?_⟩,
              fun hx => absurd hx (by decide), fun hx => absurd hx (by decide)⟩
            rintro ⟨s', rfl, -, -, hup, -⟩
            exact absurd hup h3
          · rw [if_neg h3]
            push_neg at h3
            by_cases h4 : statusUpdateOk = true
            · rw [if_neg (by simp [h4])]
              exact ⟨⟨fun _ => ⟨s, rfl, h1, by omega, h3, h4⟩, fun _ => rfl⟩, by simp⟩
            · rw [if_pos (by simpa using h4)]
              refine ⟨⟨fun hx => absurd hx (by decide), ?_⟩,
                fun hx => absurd hx (by decide), fun hx => absurd hx (by decide)⟩
              rintro ⟨s', rfl, -, -, -, hok⟩
              exact absurd hok h4

/-- Claim C4 amended-theorem witness: the spec applied to a concrete
unexpired `processing` session with a complete upload. -/
theorem FinalizeUploadHandler_spec_witness :
    (FinalizeUploadHandler (some ⟨7, 100, 100, "processing", 50⟩) 7 0 true).pipelineSpawned =
      true :=
  (FinalizeUploadHandler_spec (some ⟨7, 100, 100, "processing", 50⟩) 7 0 true).1.mpr
    ⟨⟨7, 100, 100, "processing", 50⟩, rfl, rfl, by decide, rfl, rfl⟩

/-- The upload loop fails at the first erroring upload, reporting the
best-effort deletions of every chunk stored so far. -/
theorem uploadChunksLoop_fail (env : UploadStepEnv) (fids : Nat → String) (e : String) :
    ∀ (cs : List ChunkPlan) (i : Nat) (i0 : Nat) (stored : List StoredChunkRec),
      i < cs.length →
      (∀ j, j < i → stepsOk env fids (i0 + j)) →
      env.uploadRes (i0 + i) = Except.error e →
      uploadChunksLoop env i0 stored cs =
        Except.error ("Upload failed: " ++ e,
          (stored.map (fun sc => (sc.driveAccountID, sc.driveFileID))) ++
            expectedDeleted fids i0 cs i)
  | [], i, i0, stored, hi, _, _ => by
      simp at hi
  | c :: cs, 0, i0, stored, _, _, hfail => by
      rw [Nat.add_zero] at hfail
      simp only [uploadChunksLoop, hfail, expectedDeleted, List.append_nil]
  | c :: cs, n + 1, i0, stored, hi, hok, hfail => by
      obtain ⟨hu, ⟨csum, hcsum⟩, ⟨acc, hacc⟩, ⟨man, hman⟩⟩ := hok 0 (Nat.succ_pos n)
      rw [Nat.add_zero] at hu hcsum hacc hman
      have hok' : ∀ j, j < n → stepsOk env fids (i0 + 1 + j) := by
        intro j hj
        have := hok (j + 1) (by omega)
        have harith : i0 + (j + 1) = i0 + 1 + j := by omega
        rw [harith] at this
        exact this
      have hfail' : env.uploadRes (i0 + 1 + n) = Except.error e := by
        have harith : i0 + (n + 1) = i0 + 1 + n := by omega
        rw [← harith]
        exact hfail
      have ih := uploadChunksLoop_fail env fids e cs n (i0 + 1)
        (stored ++ [⟨c.chunkID, c.driveAccountID,
          (if acc = "" then man.1 else acc), fids i0, c.size, csum,
          c.startOffset, c.endOffset⟩])
        (by simpa using hi) hok' hfail'
      simp only [uploadChunksLoop, hu, hcsum, hacc, hman, ih, expectedDeleted]
      simp [List.map_append]

/-- Claim C5: if uploading chunk `i` fails during the processing pipeline
while every chunk `j < i` was fully processed, then each uploaded chunk
`j < i` is best-effort deleted from its drive (by account id and drive file
id), the session transitions to `failed` with the cause recorded in the error
message, and neither a StoredFile record nor a key file is created. -/
theorem upload_failure_rollback (env : UploadStepEnv) (fids : Nat → String)
    (plan : List ChunkPlan) (i : Nat) (e : String)
    (hi : i < plan.length)
    (hok : ∀ j, j < i → stepsOk env fids j)
    (hfail : env.uploadRes i = Except.error e) :
    processAndUploadFile env plan =
      ⟨"failed", "Upload failed: " ++ e, expectedDeleted fids 0 plan i, false, false⟩ := by
  have hloop := uploadChunksLoop_fail env fids e plan i 0 [] hi
    (fun j hj => by simpa using hok j hj) (by simpa using hfail)
  simp only [processAndUploadFile, hloop]
  simp

/-- Claim C5 witness: two planned chunks; the upload of chunk 1 (0-based)
fails with "boom" after chunk 0 was uploaded as drive file "f0"; the outcome
is `failed` with exactly chunk 0 deleted and no StoredFile or key file. -/
theorem upload_failure_rollback_witness :
    processAndUploadFile
      ⟨fun j => if j = 0 then Except.ok "f0" else Except.error "boom",
        fun _ => Except.ok "c", fun _ => Except.ok "d",
        fun _ => Except.ok ("m", "mid"), fun _ => true, true, true⟩
      [⟨1, 11, 5, 0, 5⟩, ⟨2, 12, 5, 5, 10⟩] =
      ⟨"failed", "Upload failed: boom", [(11, "f0")], false, false⟩ :=
  upload_failure_rollback
    ⟨fun j => if j = 0 then Except.ok "f0" else Except.error "boom",
      fun _ => Except.ok "c", fun _ => Except.ok "d",
      fun _ => Except.ok ("m", "mid"), fun _ => true, true, true⟩
    (fun _ => "f0") [⟨1, 11, 5, 0, 5⟩, ⟨2, 12, 5, 5, 10⟩] 1 "boom" (by decide)
    (fun j hj => by
      have hj0 : j = 0 := by omega
      subst hj0
      exact ⟨rfl, ⟨"c", rfl⟩, ⟨"d", rfl⟩, ⟨("m", "mid"), rfl⟩⟩)
    rfl

/-- Claim C6: for an existing session, a chunk-upload request never decreases
the stored uploaded size; a successful (200) request sets it to
`max(previous uploaded_size, offset + written)`; and consequently across any
sequence of requests — re-sent or out-of-order chunks included — the uploaded
size is monotonically non-decreasing. -/
theorem uploadChunk_max_monotone (s : UploadSession) (userID : Nat) (now : Int)
    (fp hc o1 o2 : Bool) (off : Option Int) (written : Int) :
    s.uploadedSize ≤
      (UploadChunkHandler (some s) userID now fp hc o1 o2 off written).newUploadedSize ∧
    ((UploadChunkHandler (some s) userID now fp hc o1 o2 off written).statusCode = 200 →
      (UploadChunkHandler (some s) userID now fp hc o1 o2 off written).newUploadedSize =
        max s.uploadedSize
          ((UploadChunkHandler (some s) userID now fp hc o1 o2 off written).writeOffset +
            written)) ∧
    (∀ (reqs : List (Bool × Bool × Bool × Bool × Option Int × Int)),
      s.uploadedSize ≤
        (reqs.foldl (fun t r =>
          { t with uploadedSize :=
              (UploadChunkHandler (some t) userID now r.1 r.2.1 r.2.2.1 r.2.2.2.1
                r.2.2.2.2.1 r.2.2.2.2.2).newUploadedSize }) s).uploadedSize) := by
  have hstep : ∀ (t : UploadSession) (b1 b2 b3 b4 : Bool) (o : Option Int) (w : Int),
      t.uploadedSize ≤
        (UploadChunkHandler (some t) userID now b1 b2 b3 b4 o w).newUploadedSize := by
    intro t b1 b2 b3 b4 o w
    simp only [UploadChunkHandler, GetSession, sessionUploadedSize]
    by_cases h1 : t.userID ≠ userID
    · rw [if_pos h1]
    · rw [if_neg h1]
      by_cases h2 : t.expiresAt < now
      · rw [if_pos h2]
      · rw [if_neg h2]
        dsimp only
        split_ifs <;> first
          | omega
          | (dsimp only; omega)
  refine ⟨hstep s fp hc o1 o2 off written, ?_, ?_⟩
  · intro h200
    simp only [UploadChunkHandler, GetSession, sessionUploadedSize] at h200 ⊢
    by_cases h1 : s.userID ≠ userID
    · rw [if_pos h1] at h200
      dsimp only at h200
      exact absurd h200 (by decide)
    · rw [if_neg h1] at h200 ⊢
      by_cases h2 : s.expiresAt < now
      · rw [if_pos h2] at h200
        dsimp only at h200
        exact absurd h200 (by decide)
      · rw [if_neg h2] at h200 ⊢
        dsimp only at h200 ⊢
        split_ifs at h200 ⊢ <;> simp_all <;> omega
  · have hfold : ∀ (reqs : List (Bool × Bool × Bool × Bool × Option Int × Int))
        (t : UploadSession),
        t.uploadedSize ≤
          (reqs.foldl (fun t r =>
            { t with uploadedSize :=
                (UploadChunkHandler (some t) userID now r.1 r.2.1 r.2.2.1 r.2.2.2.1
                  r.2.2.2.2.1 r.2.2.2.2.2).newUploadedSize }) t).uploadedSize := by
      intro reqs
      induction reqs with
      | nil => intro t; simp
      | cons r rs ih =>
          intro t
          simp only [List.foldl_cons]
          exact le_trans (hstep t r.1 r.2.1 r.2.2.1 r.2.2.2.1 r.2.2.2.2.1 r.2.2.2.2.2)
            (ih _)
    exact fun reqs => hfold reqs s

/-- Claim C6 witness: a concrete request (offset 20, 5 bytes written) against
a session with uploaded size 10. -/
theorem uploadChunk_max_monotone_witness :
    (10 : Int) ≤ (UploadChunkHandler (some ⟨7, 100, 10, "uploading", 50⟩) 7 0 true true true
      true (some 20) 5).newUploadedSize :=
  (uploadChunk_max_monotone ⟨7, 100, 10, "uploading", 50⟩ 7 0 true true true true
    (some 20) 5).1

/-- Claim C9: a key file whose obfuscation seed differs from the one recorded
in the user's StoredFile with the same file id is rejected with HTTP 401 (not
404), and no download session is created. -/
theorem seed_mismatch_401 (key : KeyFileReq) (sf : StoredFileRec)
    (accountsOk chunksAvailable createSessionOk : Bool)
    (hfid : key.fileID ≠ "") (hseed : key.seed ≠ "")
    (hmismatch : sf.obfuscationSeed ≠ key.seed) :
    InitiateDownloadHandler true true true key (Except.ok (some sf))
      accountsOk chunksAvailable createSessionOk = ⟨401, false⟩ := by
  simp only [InitiateDownloadHandler]
  rw [if_neg (by simp), if_neg (by simp), if_neg (by simp),
    if_neg (by simp [hfid, hseed]), if_pos hmismatch]

/-- Claim C9 witness: a stored file with seed "s2" against a key file carrying
seed "s1". -/
theorem seed_mismatch_401_witness :
    InitiateDownloadHandler true true true ⟨"f", "s1"⟩
      (Except.ok (some ⟨"f", "s2", "active"⟩)) true true true = ⟨401, false⟩ :=
  seed_mismatch_401 ⟨"f", "s1"⟩ ⟨"f", "s2", "active"⟩ true true true
    (by decide) (by decide) (by decide)

/-- Claim C10: when the offset form field is missing or not a valid integer
(`offsetField = none`), the handler discards the parse error and uses offset
0: the chunk bytes are written at the beginning of the session's temp file and
the request returns HTTP 200 (given a valid session and successful file
I-O). -/
theorem missing_offset_defaults_to_zero (s : UploadSession) (userID : Nat) (now : Int)
    (written : Int) (huser : s.userID = userID) (hexp : now ≤ s.expiresAt) :
    (UploadChunkHandler (some s) userID now true true true true none written).writeOffset = 0 ∧
    (UploadChunkHandler (some s) userID now true true true true none written).statusCode =
      200 := by
  simp only [UploadChunkHandler, GetSession, Option.getD]
  rw [if_neg (by simp [huser]), if_neg (by omega)]
  simp only [not_true, if_neg (by decide : ¬ (False : Prop))]
  split_ifs <;> simp_all

/-- Claim C10 witness. -/
theorem missing_offset_defaults_to_zero_witness :
    (UploadChunkHandler (some ⟨7, 100, 10, "uploading", 50⟩) 7 0 true true true true
      none 5).writeOffset = 0 ∧
    (UploadChunkHandler (some ⟨7, 100, 10, "uploading", 50⟩) 7 0 true true true true
      none 5).statusCode = 200 :=
  missing_offset_defaults_to_zero ⟨7, 100, 10, "uploading", 50⟩ 7 0 5 rfl (by decide)

end SE
